import Mathlib

set_option maxRecDepth 10000

/-!
# Verification of the NL-SRE-Semantico core engines

This file is a shallow embedding, in Lean 4, of the core engines of the
NL-SRE-Semantico Rust crate (a probabilistic semantic disambiguator for
Spanish), together with theorems settling a list of claims about its
behaviour.

Modelling conventions, applied uniformly:

* Rust `String` / `&str` values are modelled as `List Char` (the sequence of
  Unicode scalar values of the UTF-8 string); `str.len()` (a byte count) is
  modelled as the sum of the UTF-8 sizes of the characters.
* Rust `f64` values are modelled as rationals (`ℚ`).  Every numeric literal
  appearing in the sources (weights, thresholds, the `1e-10` epsilon) is
  exactly representable, and the source code performs only additions,
  multiplications, comparisons and one guarded division on them, so the
  rational model is faithful up to floating-point rounding, which no claim
  depends on.
* `HashMap` fields are modelled either as association lists (when iteration
  matters) or as functions into `Option` (when only lookup/insert matter).
  `HashMap`/`HashSet` iteration order is unspecified in Rust; the model fixes
  insertion order and this is noted at each use site.
* Unbounded recursion through the substitution store (`deref`, `occurs_in`,
  `unify`) is modelled with an explicit fuel parameter; on the acyclic stores
  produced by the API the Rust functions terminate and agree with the model
  for every sufficiently large fuel.
* Functions that can panic in Rust (slice indexing, `unwrap`) are modelled in
  `Option`, with `none` marking the panic.
-/

namespace NLSRE

/-- Rust strings are modelled by their character sequences. -/
abbrev Str := List Char

/-- Converts a Lean string literal to the `Str` model. -/
def str (s : String) : Str := s.toList

/-- Byte length of the UTF-8 encoding; models Rust `str::len()`. -/
def utf8Len (s : Str) : Nat := (s.map Char.utf8Size).sum

/-- The rational literal `n / d` (given in lowest terms), written as a raw
`Rat` record so that kernel reduction of concrete comparisons does not have
to unfold Mathlib's division instance.  `q n d = (n : ℚ) / d` whenever
`d ≠ 0` and `n.natAbs.Coprime d`. -/
def q (n : Int) (d : Nat) (h1 : d ≠ 0 := by norm_num)
    (h2 : n.natAbs.Coprime d := by norm_num) : ℚ := ⟨n, d, h1, h2⟩

/-- Model of Rust `char::to_lowercase` restricted to the alphabet the crate
manipulates: ASCII letters plus the accented Spanish letters that appear in
the sources.  (Rust lowercases all of Unicode; only these characters are ever
produced or consulted by the embedded code paths.) -/
def toLowerCh (c : Char) : Char :=
  if c = 'Á' then 'á' else if c = 'À' then 'à' else if c = 'Ä' then 'ä'
  else if c = 'Â' then 'â' else if c = 'É' then 'é' else if c = 'È' then 'è'
  else if c = 'Ë' then 'ë' else if c = 'Ê' then 'ê' else if c = 'Í' then 'í'
  else if c = 'Ì' then 'ì' else if c = 'Ï' then 'ï' else if c = 'Î' then 'î'
  else if c = 'Ó' then 'ó' else if c = 'Ò' then 'ò' else if c = 'Ö' then 'ö'
  else if c = 'Ô' then 'ô' else if c = 'Ú' then 'ú' else if c = 'Ù' then 'ù'
  else if c = 'Ü' then 'ü' else if c = 'Û' then 'û' else if c = 'Ñ' then 'ñ'
  else c.toLower

/-- Model of `String::to_lowercase` on the embedded alphabet. -/
def strLower (s : Str) : Str := s.map toLowerCh

/-- Model of Rust `char::is_alphabetic`, restricted to ASCII plus the Spanish
letters handled by the crate (the accent-folding steps of the sources map the
latter to ASCII before this predicate is consulted on dictionary data). -/
def isAlphabeticCh (c : Char) : Bool :=
  c.isAlpha || c ∈ ['á', 'é', 'í', 'ó', 'ú', 'ñ', 'ü', 'à', 'è', 'ì', 'ò',
    'ù', 'ä', 'ë', 'ï', 'ö', 'â', 'ê', 'î', 'ô', 'û']

/-- Model of Rust `char::is_alphanumeric` on the same alphabet. -/
def isAlphanumericCh (c : Char) : Bool :=
  isAlphabeticCh c || c.isDigit

/-! ## The UNIFORM unification kernel (`src/uniform/mod.rs`)

The substitution store `UnifyContext.substitutions : HashMap<String, UnifyValue>`
is modelled as an association list with HashMap insert semantics (replace in
place if the key is present, append otherwise).  The `fresh_counter` field and
`fresh_var` are irrelevant to the claims and are omitted.  `deref`, the occurs
check and `unify` recurse through the store and are given explicit fuel; the
Rust originals are the fuel-free limits of these functions on acyclic stores. -/

/-- `UnifyValue` from `src/uniform/mod.rs`: atoms, variables, numbers (`f64`,
modelled as `ℚ`), lists and structures. -/
inductive UnifyValue where
  | Atom (s : Str)
  | Var (name : Str)
  | Num (n : ℚ)
  | List (items : List UnifyValue)
  | Struct (functor : Str) (args : List UnifyValue)

/-- The substitution store: variable name to bound value. -/
abbrev Subst := List (Str × UnifyValue)

/-- First-match lookup; models `HashMap::get`. -/
def lookupS : Subst → Str → Option UnifyValue
  | [], _ => none
  | (k, v) :: rest, key => if k = key then some v else lookupS rest key

/-- Insert with replacement; models `HashMap::insert`. -/
def insertS : Subst → Str → UnifyValue → Subst
  | [], key, v => [(key, v)]
  | (k, w) :: rest, key, v =>
    if k = key then (key, v) :: rest else (k, w) :: insertS rest key v

/-- `UnifyContext::deref` with fuel: follows variable bindings to a fixed
point.  The Rust function recurses without fuel and diverges only on cyclic
stores, which the occurs check prevents the API from building. -/
def derefF : Nat → Subst → UnifyValue → UnifyValue
  | 0, _, v => v
  | fuel + 1, s, v =>
    match v with
    | .Var name =>
      match lookupS s name with
      | some bound => derefF fuel s bound
      | none => v
    | _ => v

/-- `deref` with the canonical fuel: a deref chain in an acyclic store visits
each binding at most once, so `|store| + 1` steps always reach the fixed
point. -/
def deref (s : Subst) (v : UnifyValue) : UnifyValue := derefF (s.length + 1) s v

/-- `UnifyContext::occurs_in` with fuel: does `var` occur in `val`, following
bindings through the store. -/
def occursF : Nat → Subst → Str → UnifyValue → Bool
  | 0, _, _, _ => false
  | fuel + 1, s, var, val =>
    match deref s val with
    | .Var v => v = var
    | .List items => items.any fun i => occursF fuel s var i
    | .Struct _ args => args.any fun a => occursF fuel s var a
    | _ => false

/-- `UnifyContext::bind`: occurs check, then insert.  Returns the new store
and the success flag (`bind` returns `false`, with no mutation, on an occurs
violation). -/
def bindF (fuel : Nat) (s : Subst) (var : Str) (val : UnifyValue) :
    Subst × Bool :=
  if occursF fuel s var val then (s, false) else (insertS s var val, true)

/-- The numeric tolerance `1e-10` of `UnifyValue` number comparison. -/
def numEps : ℚ := q 1 10000000000

/-- `UnifyContext::unify` with fuel.  The list and struct cases run the
elementwise unifications left to right, threading the store and stopping at
the first failure, exactly as the short-circuiting
`iter().zip(..).all(|(ea, eb)| self.unify(ea, eb))` does on `&mut self`:
bindings committed by earlier elements are kept when a later element fails. -/
def unifyF : Nat → Subst → UnifyValue → UnifyValue → Subst × Bool
  | 0, s, _, _ => (s, false)
  | fuel + 1, s, a, b =>
    match deref s a, deref s b with
    | .Var va, .Var vb =>
      if va = vb then (s, true) else bindF fuel s va (.Var vb)
    | .Var va, bb => bindF fuel s va bb
    | aa, .Var vb => bindF fuel s vb aa
    | .Atom aa, .Atom ab => (s, decide (aa = ab))
    | .Num na, .Num nb => (s, decide (|na - nb| < numEps))
    | .List la, .List lb =>
      if la.length = lb.length then
        (la.zip lb).foldl
          (fun acc p => if acc.2 then unifyF fuel acc.1 p.1 p.2 else acc)
          (s, true)
      else (s, false)
    | .Struct fa argsa, .Struct fb argsb =>
      if fa = fb ∧ argsa.length = argsb.length then
        (argsa.zip argsb).foldl
          (fun acc p => if acc.2 then unifyF fuel acc.1 p.1 p.2 else acc)
          (s, true)
      else (s, false)
    | _, _ => (s, false)

/-- A value built from atoms, numbers, lists and structs only (no variable
anywhere). -/
def varFree : UnifyValue → Bool
  | .Atom _ => true
  | .Var _ => false
  | .Num _ => true
  | .List [] => true
  | .List (x :: xs) => varFree x && varFree (.List xs)
  | .Struct _ [] => true
  | .Struct f (x :: xs) => varFree x && varFree (.Struct f xs)

/-! ### Kernel lemmas -/

theorem lookupS_insertS_isSome (s : Subst) (x k : Str) (v : UnifyValue)
    (h : (lookupS s k).isSome) : (lookupS (insertS s x v) k).isSome := by
  induction s with
  | nil => simp [lookupS] at h
  | cons hd tl ih =>
    obtain ⟨hk, hv⟩ := hd
    simp only [insertS]
    by_cases hx : hk = x
    · simp only [if_pos hx]
      by_cases hkk : x = k
      · simp [lookupS, hkk]
      · simp only [lookupS, if_neg hkk]
        rw [hx] at h
        simpa [lookupS, hkk] using h
    · simp only [if_neg hx]
      by_cases hkk : hk = k
      · simp [lookupS, hkk]
      · simp only [lookupS, if_neg hkk] at h ⊢
        exact ih h

theorem bindF_keeps (fuel : Nat) (s : Subst) (x k : Str) (v : UnifyValue)
    (h : (lookupS s k).isSome) : (lookupS (bindF fuel s x v).1 k).isSome := by
  unfold bindF
  split
  · exact h
  · exact lookupS_insertS_isSome s x k v h

theorem foldl_unify_false (fuel : Nat) (l : List (UnifyValue × UnifyValue))
    (acc : Subst × Bool) (h : acc.2 = false) :
    l.foldl (fun acc p => if acc.2 then unifyF fuel acc.1 p.1 p.2 else acc)
      acc = acc := by
  induction l with
  | nil => rfl
  | cons p rest ih => simp [List.foldl_cons, h, ih]

theorem varFree_list_mem {l : List UnifyValue}
    (h : varFree (.List l) = true) : ∀ x ∈ l, varFree x = true := by
  induction l with
  | nil => simp
  | cons y ys ih =>
    simp only [varFree, Bool.and_eq_true] at h
    intro x hx
    rcases List.mem_cons.mp hx with hx | hx
    · exact hx ▸ h.1
    · exact ih h.2 x hx

theorem varFree_struct_mem {f : Str} {l : List UnifyValue}
    (h : varFree (.Struct f l) = true) : ∀ x ∈ l, varFree x = true := by
  induction l with
  | nil => simp
  | cons y ys ih =>
    simp only [varFree, Bool.and_eq_true] at h
    intro x hx
    rcases List.mem_cons.mp hx with hx | hx
    · exact hx ▸ h.1
    · exact ih h.2 x hx

theorem derefF_varFree {v : UnifyValue} (h : varFree v = true) (n : Nat)
    (s : Subst) : derefF n s v = v := by
  cases n with
  | zero => rfl
  | succ m => cases v <;> simp_all [derefF, varFree]

theorem deref_varFree {v : UnifyValue} (h : varFree v = true) (s : Subst) :
    deref s v = v := derefF_varFree h _ s

/-- C2 (counterexample to the claim as stated): a single `unify` call on two
equal-length lists is not all-or-nothing.  Unifying `[X, a]` with `[b, c]`
from the empty store fails on the second element, yet the binding `X ↦ b`
committed by the first element remains in the substitution store returned by
the call. -/
theorem C2_counterexample_partial_binding :
    unifyF 3 [] (.List [.Var ['X'], .Atom ['a']]) (.List [.Atom ['b'], .Atom ['c']])
      = ([(['X'], UnifyValue.Atom ['b'])], false) := rfl

/-- C2 (amended): when pointwise unification of two equal-length lists (or of
two structs) fails at some element, `unify` returns `false` but does not roll
anything back: the substitution store never loses a binding across a `unify`
call, so sub-bindings committed while processing earlier elements of the same
call remain committed.  Atomicity is the caller's responsibility via
`checkpoint`/`restore`. -/
theorem C2_unify_keeps_committed_bindings :
    ∀ (fuel : Nat) (s : Subst) (a b : UnifyValue) (k : Str),
      (lookupS s k).isSome → (lookupS (unifyF fuel s a b).1 k).isSome := by
  intro fuel
  induction fuel with
  | zero =>
    intro s a b k h
    simpa [unifyF] using h
  | succ n ih =>
    intro s a b k h
    have hfold : ∀ (l : List (UnifyValue × UnifyValue)) (acc : Subst × Bool),
        (lookupS acc.1 k).isSome →
        (lookupS
          ((l.foldl (fun acc p => if acc.2 then unifyF n acc.1 p.1 p.2 else acc)
            acc).1) k).isSome := by
      intro l
      induction l with
      | nil => intro acc hacc; simpa using hacc
      | cons p rest ihl =>
        intro acc hacc
        simp only [List.foldl_cons]
        apply ihl
        by_cases hb : acc.2
        · simpa [hb] using ih acc.1 p.1 p.2 k hacc
        · simpa [hb] using hacc
    simp only [unifyF]
    cases h1 : deref s a <;> cases h2 : deref s b
    any_goals exact h
    any_goals exact bindF_keeps n s _ k _ h
    all_goals try split
    any_goals exact h
    any_goals exact bindF_keeps n s _ k _ h
    all_goals try split
    any_goals exact h
    any_goals exact bindF_keeps n s _ k _ h
    all_goals exact hfold _ (s, true) h

/-- C2 witness: instantiates the amended theorem on a store holding `X ↦ b`
and a failing atom/atom unification; the binding survives the failed call. -/
theorem C2_unify_keeps_committed_bindings_witness :
    ((lookupS [(['X'], UnifyValue.Atom ['b'])] ['X']).isSome = true) ∧
    ((lookupS (unifyF 2 [(['X'], UnifyValue.Atom ['b'])] (.Atom ['a'])
        (.Atom ['c'])).1 ['X']).isSome = true) :=
  ⟨rfl, C2_unify_keeps_committed_bindings 2 [(['X'], UnifyValue.Atom ['b'])]
    (.Atom ['a']) (.Atom ['c']) ['X'] rfl⟩

/-! ### Deref endpoints and store similarity (claim C9) -/

/-- A store on which every `deref` chain ends at a genuine endpoint: a
non-variable value or an unbound variable.  On any other store the Rust
`deref` recurses forever, so a `unify` call only returns on such stores;
every store reachable through the `bind`/`unify` API is of this kind. -/
def derefOK (s : Subst) : Prop :=
  ∀ x w, deref s x = .Var w → lookupS s w = none

/-- Two stores presenting the same observable substitution: values deref to
variables in one iff they do in the other, two values deref equal in one iff
they deref equal in the other (the same variable grouping), and non-variable
deref results coincide exactly.  Such stores differ only in which variable of
a group carries a binding. -/
structure StoreSim (s t : Subst) : Prop where
  okL : derefOK s
  okR : derefOK t
  eqv : ∀ x y, deref s x = deref s y ↔ deref t x = deref t y
  varR : ∀ x w, deref s x = .Var w → ∃ w', deref t x = .Var w'
  nvEq : ∀ x, (∀ w, deref s x ≠ .Var w) → deref t x = deref s x

theorem StoreSim.nvDeref {s t : Subst} (sim : StoreSim s t) {u z : UnifyValue}
    (hz : deref s u = z) (hnz : ∀ w, z ≠ .Var w) : deref t u = z := by
  have h2 := sim.nvEq u (fun w hh => hnz w (hz.symm.trans hh))
  rw [hz] at h2
  exact h2

theorem StoreSim.corr {s t : Subst} (sim : StoreSim s t) {a : UnifyValue}
    {va va' : Str} (hsa : deref s a = .Var va) (hta : deref t a = .Var va') :
    ∀ y, deref s y = .Var va ↔ deref t y = .Var va' := by
  intro y
  constructor
  · intro h
    have he : deref s y = deref s a := by rw [h, hsa]
    have h2 := (sim.eqv y a).mp he
    rw [hta] at h2
    exact h2
  · intro h
    have he : deref t y = deref t a := by rw [h, hta]
    have h2 := (sim.eqv y a).mpr he
    rw [hsa] at h2
    exact h2

theorem lookupS_append (s t : Subst) (k : Str) :
    lookupS (s ++ t) k =
      match lookupS s k with
      | some v => some v
      | none => lookupS t k := by
  induction s with
  | nil => rfl
  | cons hd tl ih =>
    obtain ⟨hk, hv⟩ := hd
    by_cases h : hk = k
    · simp [lookupS, h]
    · simp [lookupS, h, ih]

theorem insertS_of_lookup_none (s : Subst) (k : Str) (v : UnifyValue)
    (h : lookupS s k = none) : insertS s k v = s ++ [(k, v)] := by
  induction s with
  | nil => rfl
  | cons hd tl ih =>
    obtain ⟨hk, hv⟩ := hd
    simp only [lookupS] at h
    by_cases hkk : hk = k
    · rw [if_pos hkk] at h
      cases h
    · rw [if_neg hkk] at h
      simp [insertS, hkk, ih h]

theorem derefF_fixed (s : Subst) (x : UnifyValue)
    (hx : ∀ w, x = .Var w → lookupS s w = none) :
    ∀ m, derefF m s x = x := by
  intro m
  cases m with
  | zero => rfl
  | succ m2 =>
    cases x with
    | Var w =>
      simp only [derefF]
      rw [hx w rfl]
    | Atom a => rfl
    | Num n => rfl
    | List l => rfl
    | Struct f l => rfl

theorem deref_unbound (s : Subst) (w : Str) (h : lookupS s w = none) :
    deref s (.Var w) = .Var w :=
  derefF_fixed s (.Var w) (fun w2 h2 => (UnifyValue.Var.inj h2) ▸ h) _

theorem deref_nonvarC (s : Subst) (x : UnifyValue) (hx : ∀ w, x ≠ .Var w) :
    deref s x = x :=
  derefF_fixed s x (fun w h => absurd h (hx w)) _

theorem derefF_stable (s : Subst) :
    ∀ (n m : Nat) (x : UnifyValue), n ≤ m →
      (∀ w, derefF n s x = .Var w → lookupS s w = none) →
      derefF m s x = derefF n s x := by
  intro n
  induction n with
  | zero =>
    intro m x _ hx
    exact derefF_fixed s x (fun w h => hx w h) m
  | succ n2 ih =>
    intro m x hnm hx
    cases m with
    | zero => exact absurd hnm (by omega)
    | succ m2 =>
      have hnm2 : n2 ≤ m2 := Nat.le_of_succ_le_succ hnm
      cases x with
      | Var w =>
        simp only [derefF]
        cases hw : lookupS s w with
        | none => rfl
        | some bound =>
          exact ih m2 bound hnm2
            (fun w2 h2 => hx w2 (by simp only [derefF]; rw [hw]; exact h2))
      | Atom a => rfl
      | Num n3 => rfl
      | List l => rfl
      | Struct f l => rfl


theorem lookupS_insert_out (s : Subst) (va : Str) (u : UnifyValue)
    (hva : lookupS s va = none) (w : Str) (hw : w ≠ va)
    (hnone : lookupS s w = none) :
    lookupS (insertS s va u) w = none := by
  rw [insertS_of_lookup_none s va u hva, lookupS_append, hnone]
  dsimp only
  simp only [lookupS]
  rw [if_neg (fun hh => hw hh.symm)]

/-- The effect of binding `va` on a deref result: the endpoint `Var va` now
continues to the bound value `u`; everything else is untouched. -/
def derefIns (va : Str) (u : UnifyValue) (z : UnifyValue) : UnifyValue :=
  match z with
  | .Var w => if w = va then u else z
  | _ => z

theorem derefIns_eq (va : Str) (u : UnifyValue) {z : UnifyValue}
    (h : z = .Var va) : derefIns va u z = u := by
  subst h
  simp [derefIns]

theorem derefIns_ne (va : Str) (u : UnifyValue) {z : UnifyValue}
    (h : z ≠ .Var va) : derefIns va u z = z := by
  cases z with
  | Var w =>
    simp only [derefIns]
    rw [if_neg (fun hh => h (by rw [hh]))]
  | Atom a => rfl
  | Num n => rfl
  | List l => rfl
  | Struct f l => rfl

theorem derefF_insert_aux (s : Subst) (va : Str) (u : UnifyValue)
    (hOK : derefOK s) (hva : lookupS s va = none)
    (hu : ∀ w, u = .Var w → w ≠ va ∧ lookupS s w = none) :
    ∀ n x, n ≤ s.length + 1 → derefF n s x = deref s x →
      derefF (n + 1) (s ++ [(va, u)]) x = derefIns va u (deref s x) := by
  have hlk : ∀ w, lookupS (s ++ [(va, u)]) w =
      match lookupS s w with
      | some v => some v
      | none => if va = w then some u else none := by
    intro w
    rw [lookupS_append]
    cases lookupS s w with
    | some v => rfl
    | none => simp [lookupS]
  have hufix : ∀ m, derefF m (s ++ [(va, u)]) u = u := by
    apply derefF_fixed
    intro w hw
    obtain ⟨hwa, hwn⟩ := hu w hw
    rw [hlk w, hwn]
    dsimp only
    rw [if_neg (fun hh => hwa hh.symm)]
  intro n
  induction n with
  | zero =>
    intro x _ h0
    have h0' : x = deref s x := h0
    rw [← h0']
    cases x with
    | Var w =>
      have hw : lookupS s w = none := hOK (.Var w) w h0'.symm
      simp only [derefF, derefIns]
      rw [hlk w, hw]
      dsimp only
      by_cases hvw : va = w
      · rw [if_pos hvw, if_pos hvw.symm]
      · rw [if_neg hvw, if_neg (fun hh => hvw hh.symm)]
    | Atom a => rfl
    | Num n2 => rfl
    | List l => rfl
    | Struct f l => rfl
  | succ n2 ih =>
    intro x hn h
    cases x with
    | Var w =>
      cases hw : lookupS s w with
      | none =>
        have hd : deref s (.Var w) = .Var w := deref_unbound s w hw
        rw [hd]
        simp only [derefF, derefIns]
        rw [hlk w, hw]
        dsimp only
        by_cases hvw : va = w
        · rw [if_pos hvw, if_pos hvw.symm]
          exact hufix (n2 + 1)
        · rw [if_neg hvw, if_neg (fun hh => hvw hh.symm)]
      | some bound =>
        have hstep : derefF (n2 + 1) s (.Var w) = derefF n2 s bound := by
          simp only [derefF]
          rw [hw]
        have hb : derefF n2 s bound = deref s (.Var w) := by
          rw [← hstep]
          exact h
        have hbend : ∀ w2, derefF n2 s bound = .Var w2 → lookupS s w2 = none :=
          fun w2 h2 => hOK (.Var w) w2 (hb ▸ h2)
        have hbst : deref s bound = derefF n2 s bound :=
          derefF_stable s n2 (s.length + 1) bound (by omega) hbend
        have hIH := ih bound (by omega) hbst.symm
        rw [hbst, hb] at hIH
        have hgoal : derefF (n2 + 1 + 1) (s ++ [(va, u)]) (.Var w)
            = derefF (n2 + 1) (s ++ [(va, u)]) bound := by
          simp only [derefF]
          rw [hlk w, hw]
        rw [hgoal, hIH]
    | Atom a =>
      rw [deref_nonvarC s (.Atom a) (fun w hh => UnifyValue.noConfusion hh)]
      rfl
    | Num n3 =>
      rw [deref_nonvarC s (.Num n3) (fun w hh => UnifyValue.noConfusion hh)]
      rfl
    | List l =>
      rw [deref_nonvarC s (.List l) (fun w hh => UnifyValue.noConfusion hh)]
      rfl
    | Struct f l =>
      rw [deref_nonvarC s (.Struct f l) (fun w hh => UnifyValue.noConfusion hh)]
      rfl

theorem deref_insert (s : Subst) (va : Str) (u : UnifyValue)
    (hOK : derefOK s) (hva : lookupS s va = none)
    (hu : ∀ w, u = .Var w → w ≠ va ∧ lookupS s w = none) (x : UnifyValue) :
    deref (insertS s va u) x = derefIns va u (deref s x) := by
  have hins : insertS s va u = s ++ [(va, u)] := insertS_of_lookup_none s va u hva
  show derefF ((insertS s va u).length + 1) (insertS s va u) x = _
  rw [hins]
  have hlen : (s ++ [(va, u)]).length = s.length + 1 := by simp
  rw [hlen]
  exact derefF_insert_aux s va u hOK hva hu (s.length + 1) x (Nat.le_refl _) rfl

theorem derefOK_insert (s : Subst) (va : Str) (u : UnifyValue)
    (hOK : derefOK s) (hva : lookupS s va = none)
    (hu : ∀ w, u = .Var w → w ≠ va ∧ lookupS s w = none) :
    derefOK (insertS s va u) := by
  intro x w h
  rw [deref_insert s va u hOK hva hu x] at h
  by_cases hc : deref s x = .Var va
  · rw [derefIns_eq va u hc] at h
    obtain ⟨hne, hnone⟩ := hu w h
    exact lookupS_insert_out s va u hva w hne hnone
  · rw [derefIns_ne va u hc] at h
    have hw : w ≠ va := fun he => hc (he ▸ h)
    exact lookupS_insert_out s va u hva w hw (hOK x w h)


theorem anyCongr {l : List UnifyValue} {f g : UnifyValue → Bool}
    (h : ∀ x, f x = g x) : l.any f = l.any g :=
  congrArg l.any (funext h)

theorem occursSym (s t : Subst) (sim : StoreSim s t) (va va' : Str)
    (hc : ∀ y, deref s y = .Var va ↔ deref t y = .Var va') :
    ∀ (f : Nat) (u : UnifyValue), occursF f s va u = occursF f t va' u := by
  intro f
  induction f with
  | zero => intro u; rfl
  | succ n ih =>
    intro u
    simp only [occursF]
    cases hsu : deref s u with
    | Var w =>
      obtain ⟨w', htu⟩ := sim.varR u w hsu
      rw [htu]
      dsimp only
      have hiff : (w = va) ↔ (w' = va') := by
        constructor
        · intro he
          have h1 := (hc u).mp (by rw [hsu, he])
          rw [htu] at h1
          exact UnifyValue.Var.inj h1
        · intro he
          have h1 := (hc u).mpr (by rw [htu, he])
          rw [hsu] at h1
          exact UnifyValue.Var.inj h1
      exact decide_eq_decide.mpr hiff
    | Atom a =>
      rw [sim.nvDeref hsu (fun w hh => UnifyValue.noConfusion hh)]
    | Num n2 =>
      rw [sim.nvDeref hsu (fun w hh => UnifyValue.noConfusion hh)]
    | List items =>
      rw [sim.nvDeref hsu (fun w hh => UnifyValue.noConfusion hh)]
      dsimp only
      exact anyCongr (fun i => ih i)
    | Struct f2 args =>
      rw [sim.nvDeref hsu (fun w hh => UnifyValue.noConfusion hh)]
      dsimp only
      exact anyCongr (fun i => ih i)

theorem occursF_var_unbound (s : Subst) (va vb : Str)
    (h : lookupS s vb = none) (hne : vb ≠ va) :
    ∀ f, occursF f s va (.Var vb) = false := by
  intro f
  cases f with
  | zero => rfl
  | succ n =>
    simp only [occursF]
    rw [deref_unbound s vb h]
    dsimp only
    exact decide_eq_false hne

theorem StoreSim_insert_nonvar {s t : Subst} (sim : StoreSim s t)
    {a : UnifyValue} {va va' : Str} (hsa : deref s a = .Var va)
    (hta : deref t a = .Var va') {u : UnifyValue} (hnv : ∀ w, u ≠ .Var w) :
    StoreSim (insertS s va u) (insertS t va' u) := by
  have hva : lookupS s va = none := sim.okL a va hsa
  have hva' : lookupS t va' = none := sim.okR a va' hta
  have hus : ∀ w, u = .Var w → w ≠ va ∧ lookupS s w = none :=
    fun w h => absurd h (hnv w)
  have hut : ∀ w, u = .Var w → w ≠ va' ∧ lookupS t w = none :=
    fun w h => absurd h (hnv w)
  have hcorr := sim.corr hsa hta
  have Ds := deref_insert s va u sim.okL hva hus
  have Dt := deref_insert t va' u sim.okR hva' hut
  refine ⟨derefOK_insert s va u sim.okL hva hus,
          derefOK_insert t va' u sim.okR hva' hut, ?_, ?_, ?_⟩
  · intro x y
    rw [Ds x, Ds y, Dt x, Dt y]
    by_cases hx : deref s x = .Var va
    · rw [derefIns_eq va u hx, derefIns_eq va' u ((hcorr x).mp hx)]
      by_cases hy : deref s y = .Var va
      · rw [derefIns_eq va u hy, derefIns_eq va' u ((hcorr y).mp hy)]
      · rw [derefIns_ne va u hy,
            derefIns_ne va' u (fun hh => hy ((hcorr y).mpr hh))]
        constructor
        · intro he
          have h2 : deref t y = u := sim.nvDeref he.symm hnv
          exact h2.symm
        · intro he
          by_cases hv : ∃ w, deref s y = .Var w
          · obtain ⟨w, hw⟩ := hv
            obtain ⟨w2, hw2⟩ := sim.varR y w hw
            rw [hw2] at he
            exact absurd he (hnv w2)
          · have hnz : ∀ w, deref s y ≠ .Var w := fun w hh => hv ⟨w, hh⟩
            have h2 := sim.nvEq y hnz
            rw [h2] at he
            exact he
    · rw [derefIns_ne va u hx,
          derefIns_ne va' u (fun hh => hx ((hcorr x).mpr hh))]
      by_cases hy : deref s y = .Var va
      · rw [derefIns_eq va u hy, derefIns_eq va' u ((hcorr y).mp hy)]
        constructor
        · intro he
          exact sim.nvDeref he hnv
        · intro he
          by_cases hv : ∃ w, deref s x = .Var w
          · obtain ⟨w, hw⟩ := hv
            obtain ⟨w2, hw2⟩ := sim.varR x w hw
            rw [hw2] at he
            exact absurd he.symm (hnv w2)
          · have hnz : ∀ w, deref s x ≠ .Var w := fun w hh => hv ⟨w, hh⟩
            have h2 := sim.nvEq x hnz
            rw [h2] at he
            exact he
      · rw [derefIns_ne va u hy,
            derefIns_ne va' u (fun hh => hy ((hcorr y).mpr hh))]
        exact sim.eqv x y
  · intro x w h
    rw [Ds x] at h
    by_cases hx : deref s x = .Var va
    · rw [derefIns_eq va u hx] at h
      exact absurd h (hnv w)
    · rw [derefIns_ne va u hx] at h
      obtain ⟨w2, hw2⟩ := sim.varR x w h
      refine ⟨w2, ?_⟩
      rw [Dt x, derefIns_ne va' u (fun hh => hx ((hcorr x).mpr hh)), hw2]
  · intro x hnx
    rw [Ds x] at hnx ⊢
    rw [Dt x]
    by_cases hx : deref s x = .Var va
    · rw [derefIns_eq va u hx] at hnx ⊢
      rw [derefIns_eq va' u ((hcorr x).mp hx)]
    · rw [derefIns_ne va u hx] at hnx ⊢
      rw [derefIns_ne va' u (fun hh => hx ((hcorr x).mpr hh))]
      exact sim.nvEq x hnx

theorem StoreSim_insert_varvar {s t : Subst} (sim : StoreSim s t)
    {a b : UnifyValue} {va vb va' vb' : Str}
    (hsa : deref s a = .Var va) (hsb : deref s b = .Var vb)
    (hta : deref t a = .Var va') (htb : deref t b = .Var vb')
    (hab : va ≠ vb) :
    StoreSim (insertS s va (.Var vb)) (insertS t vb' (.Var va')) := by
  have hva : lookupS s va = none := sim.okL a va hsa
  have hvb : lookupS s vb = none := sim.okL b vb hsb
  have hva' : lookupS t va' = none := sim.okR a va' hta
  have hvb' : lookupS t vb' = none := sim.okR b vb' htb
  have hca := sim.corr hsa hta
  have hcb := sim.corr hsb htb
  have hab' : va' ≠ vb' := by
    intro he
    apply hab
    have h1 : deref t a = deref t b := by rw [hta, htb, he]
    have h2 := (sim.eqv a b).mpr h1
    rw [hsa, hsb] at h2
    exact UnifyValue.Var.inj h2
  have hus : ∀ w, (UnifyValue.Var vb) = .Var w → w ≠ va ∧ lookupS s w = none := by
    intro w h
    cases UnifyValue.Var.inj h
    exact ⟨fun hh => hab hh.symm, hvb⟩
  have hut : ∀ w, (UnifyValue.Var va') = .Var w → w ≠ vb' ∧ lookupS t w = none := by
    intro w h
    cases UnifyValue.Var.inj h
    exact ⟨hab', hva'⟩
  have Ds := deref_insert s va (.Var vb) sim.okL hva hus
  have Dt := deref_insert t vb' (.Var va') sim.okR hvb' hut
  have hsvb : (UnifyValue.Var vb : UnifyValue) ≠ .Var va :=
    fun hh => hab (UnifyValue.Var.inj hh).symm
  have htva : (UnifyValue.Var va' : UnifyValue) ≠ .Var vb' :=
    fun hh => hab' (UnifyValue.Var.inj hh)
  refine ⟨derefOK_insert s va (.Var vb) sim.okL hva hus,
          derefOK_insert t vb' (.Var va') sim.okR hvb' hut, ?_, ?_, ?_⟩
  · intro x y
    rw [Ds x, Ds y, Dt x, Dt y]
    by_cases hx1 : deref s x = .Var va
    · -- x in class A: s-value Var vb, t-value Var va'
      rw [derefIns_eq va (.Var vb) hx1]
      rw [derefIns_ne vb' (.Var va')
        (fun hh => hab ((UnifyValue.Var.inj (((hcb x).mpr hh).symm.trans hx1)).symm))]
      rw [(hca x).mp hx1]
      by_cases hy1 : deref s y = .Var va
      · rw [derefIns_eq va (.Var vb) hy1]
        rw [derefIns_ne vb' (.Var va')
          (fun hh => hab ((UnifyValue.Var.inj (((hcb y).mpr hh).symm.trans hy1)).symm))]
        rw [(hca y).mp hy1]
        exact iff_of_true rfl rfl
      · by_cases hy2 : deref s y = .Var vb
        · rw [derefIns_ne va (.Var vb) (fun hh => hy1 hh), hy2]
          rw [derefIns_eq vb' (.Var va') ((hcb y).mp hy2)]
          exact iff_of_true rfl rfl
        · rw [derefIns_ne va (.Var vb) hy1]
          rw [derefIns_ne vb' (.Var va') (fun hh => hy2 ((hcb y).mpr hh))]
          constructor
          · intro he
            exact absurd he.symm hy2
          · intro he
            have hyv : deref t y = .Var va' := he.symm
            exact absurd ((hca y).mpr hyv) hy1
    · by_cases hx2 : deref s x = .Var vb
      · -- x in class B: s-value Var vb (else branch), t-value Var va'
        rw [derefIns_ne va (.Var vb) hx1, hx2]
        rw [derefIns_eq vb' (.Var va') ((hcb x).mp hx2)]
        by_cases hy1 : deref s y = .Var va
        · rw [derefIns_eq va (.Var vb) hy1]
          rw [derefIns_ne vb' (.Var va')
            (fun hh => hab ((UnifyValue.Var.inj (((hcb y).mpr hh).symm.trans hy1)).symm))]
          rw [(hca y).mp hy1]
          exact iff_of_true rfl rfl
        · by_cases hy2 : deref s y = .Var vb
          · rw [derefIns_ne va (.Var vb) hy1, hy2]
            rw [derefIns_eq vb' (.Var va') ((hcb y).mp hy2)]
            exact iff_of_true rfl rfl
          · rw [derefIns_ne va (.Var vb) hy1]
            rw [derefIns_ne vb' (.Var va') (fun hh => hy2 ((hcb y).mpr hh))]
            constructor
            · intro he
              exact absurd he.symm hy2
            · intro he
              have hyv : deref t y = .Var va' := he.symm
              exact absurd ((hca y).mpr hyv) hy1
      · -- x in class C: untouched on both sides
        rw [derefIns_ne va (.Var vb) hx1]
        rw [derefIns_ne vb' (.Var va') (fun hh => hx2 ((hcb x).mpr hh))]
        by_cases hy1 : deref s y = .Var va
        · rw [derefIns_eq va (.Var vb) hy1]
          rw [derefIns_ne vb' (.Var va')
            (fun hh => hab ((UnifyValue.Var.inj (((hcb y).mpr hh).symm.trans hy1)).symm))]
          rw [(hca y).mp hy1]
          constructor
          · intro he
            exact absurd he hx2
          · intro he
            exact absurd ((hca x).mpr he) hx1
        · by_cases hy2 : deref s y = .Var vb
          · rw [derefIns_ne va (.Var vb) hy1, hy2]
            rw [derefIns_eq vb' (.Var va') ((hcb y).mp hy2)]
            constructor
            · intro he
              exact absurd he hx2
            · intro he
              exact absurd ((hca x).mpr he) hx1
          · rw [derefIns_ne va (.Var vb) hy1]
            rw [derefIns_ne vb' (.Var va') (fun hh => hy2 ((hcb y).mpr hh))]
            exact sim.eqv x y
  · intro x w h
    rw [Ds x] at h
    by_cases hx1 : deref s x = .Var va
    · refine ⟨va', ?_⟩
      rw [Dt x]
      rw [derefIns_ne vb' (.Var va')
        (fun hh => hab ((UnifyValue.Var.inj (((hcb x).mpr hh).symm.trans hx1)).symm))]
      exact (hca x).mp hx1
    · rw [derefIns_ne va (.Var vb) hx1] at h
      by_cases hx2 : deref s x = .Var vb
      · refine ⟨va', ?_⟩
        rw [Dt x]
        rw [derefIns_eq vb' (.Var va') ((hcb x).mp hx2)]
      · obtain ⟨w2, hw2⟩ := sim.varR x w h
        refine ⟨w2, ?_⟩
        rw [Dt x]
        rw [derefIns_ne vb' (.Var va') (fun hh => hx2 ((hcb x).mpr hh)), hw2]
  · intro x hnx
    rw [Ds x] at hnx ⊢
    rw [Dt x]
    by_cases hx1 : deref s x = .Var va
    · rw [derefIns_eq va (.Var vb) hx1] at hnx
      exact absurd rfl (hnx vb)
    · rw [derefIns_ne va (.Var vb) hx1] at hnx ⊢
      by_cases hx2 : deref s x = .Var vb
      · rw [hx2] at hnx
        exact absurd rfl (hnx vb)
      · rw [derefIns_ne vb' (.Var va') (fun hh => hx2 ((hcb x).mpr hh))]
        exact sim.nvEq x hnx


theorem bindF_occurs_true {f : Nat} {s : Subst} {va : Str} {u : UnifyValue}
    (h : occursF f s va u = true) : bindF f s va u = (s, false) := by
  unfold bindF
  rw [if_pos h]

theorem bindF_occurs_false {f : Nat} {s : Subst} {va : Str} {u : UnifyValue}
    (h : occursF f s va u = false) :
    bindF f s va u = (insertS s va u, true) := by
  unfold bindF
  rw [if_neg (by rw [h]; exact Bool.false_ne_true)]

/-- Core simulation argument for C9: over any pair of `StoreSim`-related
stores, `unify a b` on the first and `unify b a` on the second return the
same success flag and `StoreSim`-related stores. -/
theorem unify_symm_sim :
    ∀ (fuel : Nat) (s t : Subst) (a b : UnifyValue), StoreSim s t →
      ((unifyF fuel s a b).2 = (unifyF fuel t b a).2) ∧
      StoreSim (unifyF fuel s a b).1 (unifyF fuel t b a).1 := by
  intro fuel
  induction fuel with
  | zero =>
    intro s t a b sim
    exact ⟨rfl, sim⟩
  | succ n ih =>
    intro s t a b sim
    have hfold : ∀ (l1 l2 : List UnifyValue) (p q : Subst × Bool),
        p.2 = q.2 → StoreSim p.1 q.1 →
        (((l1.zip l2).foldl
            (fun acc r => if acc.2 then unifyF n acc.1 r.1 r.2 else acc) p).2
          = ((l2.zip l1).foldl
            (fun acc r => if acc.2 then unifyF n acc.1 r.1 r.2 else acc) q).2)
        ∧ StoreSim
            ((l1.zip l2).foldl
              (fun acc r => if acc.2 then unifyF n acc.1 r.1 r.2 else acc) p).1
            ((l2.zip l1).foldl
              (fun acc r => if acc.2 then unifyF n acc.1 r.1 r.2 else acc) q).1 := by
      intro l1
      induction l1 with
      | nil =>
        intro l2 p q hpq hsim
        cases l2 with
        | nil => exact ⟨hpq, hsim⟩
        | cons y ys =>
          simp only [List.zip_nil_left, List.zip_nil_right, List.foldl_nil]
          exact ⟨hpq, hsim⟩
      | cons x xs ihl =>
        intro l2 p q hpq hsim
        cases l2 with
        | nil =>
          simp only [List.zip_nil_left, List.zip_nil_right, List.foldl_nil]
          exact ⟨hpq, hsim⟩
        | cons y ys =>
          simp only [List.zip_cons_cons, List.foldl_cons]
          rcases p with ⟨ps, pb⟩
          rcases q with ⟨qs, qb⟩
          dsimp only at hpq hsim ⊢
          cases pb with
          | false =>
            cases qb with
            | true => cases hpq
            | false =>
              simp only [Bool.false_eq_true, if_false]
              exact ihl ys (ps, false) (qs, false) rfl hsim
          | true =>
            cases qb with
            | false => cases hpq
            | true =>
              simp only [if_true]
              obtain ⟨hf, hs2⟩ := ih ps qs x y hsim
              exact ihl ys (unifyF n ps x y) (unifyF n qs y x) hf hs2
    simp only [unifyF]
    cases hsa : deref s a with
    | Var va =>
      obtain ⟨va', hta⟩ := sim.varR a va hsa
      cases hsb : deref s b with
      | Var vb =>
        obtain ⟨vb', htb⟩ := sim.varR b vb hsb
        rw [hta, htb]
        dsimp only
        by_cases hvv : va = vb
        · have hvv' : vb' = va' := by
            have h1 : deref s a = deref s b := by rw [hsa, hsb, hvv]
            have h2 := (sim.eqv a b).mp h1
            rw [hta, htb] at h2
            exact (UnifyValue.Var.inj h2).symm
          rw [if_pos hvv, if_pos hvv']
          exact ⟨rfl, sim⟩
        · have hvv' : ¬ (vb' = va') := by
            intro he
            apply hvv
            have h1 : deref t a = deref t b := by rw [hta, htb, he]
            have h2 := (sim.eqv a b).mpr h1
            rw [hsa, hsb] at h2
            exact UnifyValue.Var.inj h2
          rw [if_neg hvv, if_neg hvv']
          have ho1 : occursF n s va (.Var vb) = false :=
            occursF_var_unbound s va vb (sim.okL b vb hsb)
              (fun he => hvv he.symm) n
          have ho2 : occursF n t vb' (.Var va') = false :=
            occursF_var_unbound t vb' va' (sim.okR a va' hta)
              (fun he => hvv' he.symm) n
          rw [bindF_occurs_false ho1, bindF_occurs_false ho2]
          exact ⟨rfl, StoreSim_insert_varvar sim hsa hsb hta htb hvv⟩
      | Atom x2 =>
        have htb : deref t b = .Atom x2 :=
          sim.nvDeref hsb (fun w hh => UnifyValue.noConfusion hh)
        rw [hta, htb]
        dsimp only
        have ho := occursSym s t sim va va' (sim.corr hsa hta) n (.Atom x2)
        cases hoc : occursF n s va (.Atom x2) with
        | true =>
          rw [bindF_occurs_true hoc, bindF_occurs_true (ho ▸ hoc)]
          exact ⟨rfl, sim⟩
        | false =>
          rw [bindF_occurs_false hoc, bindF_occurs_false (ho ▸ hoc)]
          exact ⟨rfl, StoreSim_insert_nonvar sim hsa hta
            (fun w hh => UnifyValue.noConfusion hh)⟩
      | Num n2 =>
        have htb : deref t b = .Num n2 :=
          sim.nvDeref hsb (fun w hh => UnifyValue.noConfusion hh)
        rw [hta, htb]
        dsimp only
        have ho := occursSym s t sim va va' (sim.corr hsa hta) n (.Num n2)
        cases hoc : occursF n s va (.Num n2) with
        | true =>
          rw [bindF_occurs_true hoc, bindF_occurs_true (ho ▸ hoc)]
          exact ⟨rfl, sim⟩
        | false =>
          rw [bindF_occurs_false hoc, bindF_occurs_false (ho ▸ hoc)]
          exact ⟨rfl, StoreSim_insert_nonvar sim hsa hta
            (fun w hh => UnifyValue.noConfusion hh)⟩
      | List l2 =>
        have htb : deref t b = .List l2 :=
          sim.nvDeref hsb (fun w hh => UnifyValue.noConfusion hh)
        rw [hta, htb]
        dsimp only
        have ho := occursSym s t sim va va' (sim.corr hsa hta) n (.List l2)
        cases hoc : occursF n s va (.List l2) with
        | true =>
          rw [bindF_occurs_true hoc, bindF_occurs_true (ho ▸ hoc)]
          exact ⟨rfl, sim⟩
        | false =>
          rw [bindF_occurs_false hoc, bindF_occurs_false (ho ▸ hoc)]
          exact ⟨rfl, StoreSim_insert_nonvar sim hsa hta
            (fun w hh => UnifyValue.noConfusion hh)⟩
      | Struct f2 args2 =>
        have htb : deref t b = .Struct f2 args2 :=
          sim.nvDeref hsb (fun w hh => UnifyValue.noConfusion hh)
        rw [hta, htb]
        dsimp only
        have ho := occursSym s t sim va va' (sim.corr hsa hta) n
          (.Struct f2 args2)
        cases hoc : occursF n s va (.Struct f2 args2) with
        | true =>
          rw [bindF_occurs_true hoc, bindF_occurs_true (ho ▸ hoc)]
          exact ⟨rfl, sim⟩
        | false =>
          rw [bindF_occurs_false hoc, bindF_occurs_false (ho ▸ hoc)]
          exact ⟨rfl, StoreSim_insert_nonvar sim hsa hta
            (fun w hh => UnifyValue.noConfusion hh)⟩
    | Atom x1 =>
      have hta : deref t a = .Atom x1 :=
        sim.nvDeref hsa (fun w hh => UnifyValue.noConfusion hh)
      cases hsb : deref s b with
      | Var vb =>
        obtain ⟨vb', htb⟩ := sim.varR b vb hsb
        rw [hta, htb]
        dsimp only
        have ho := occursSym s t sim vb vb' (sim.corr hsb htb) n (.Atom x1)
        cases hoc : occursF n s vb (.Atom x1) with
        | true =>
          rw [bindF_occurs_true hoc, bindF_occurs_true (ho ▸ hoc)]
          exact ⟨rfl, sim⟩
        | false =>
          rw [bindF_occurs_false hoc, bindF_occurs_false (ho ▸ hoc)]
          exact ⟨rfl, StoreSim_insert_nonvar sim hsb htb
            (fun w hh => UnifyValue.noConfusion hh)⟩
      | Atom y2 =>
        have htb : deref t b = .Atom y2 :=
          sim.nvDeref hsb (fun w hh => UnifyValue.noConfusion hh)
        rw [hta, htb]
        dsimp only
        exact ⟨decide_eq_decide.mpr eq_comm, sim⟩
      | Num y2 =>
        have htb : deref t b = .Num y2 :=
          sim.nvDeref hsb (fun w hh => UnifyValue.noConfusion hh)
        rw [hta, htb]
        exact ⟨rfl, sim⟩
      | List y2 =>
        have htb : deref t b = .List y2 :=
          sim.nvDeref hsb (fun w hh => UnifyValue.noConfusion hh)
        rw [hta, htb]
        exact ⟨rfl, sim⟩
      | Struct y2 y3 =>
        have htb : deref t b = .Struct y2 y3 :=
          sim.nvDeref hsb (fun w hh => UnifyValue.noConfusion hh)
        rw [hta, htb]
        exact ⟨rfl, sim⟩
    | Num x1 =>
      have hta : deref t a = .Num x1 :=
        sim.nvDeref hsa (fun w hh => UnifyValue.noConfusion hh)
      cases hsb : deref s b with
      | Var vb =>
        obtain ⟨vb', htb⟩ := sim.varR b vb hsb
        rw [hta, htb]
        dsimp only
        have ho := occursSym s t sim vb vb' (sim.corr hsb htb) n (.Num x1)
        cases hoc : occursF n s vb (.Num x1) with
        | true =>
          rw [bindF_occurs_true hoc, bindF_occurs_true (ho ▸ hoc)]
          exact ⟨rfl, sim⟩
        | false =>
          rw [bindF_occurs_false hoc, bindF_occurs_false (ho ▸ hoc)]
          exact ⟨rfl, StoreSim_insert_nonvar sim hsb htb
            (fun w hh => UnifyValue.noConfusion hh)⟩
      | Atom y2 =>
        have htb : deref t b = .Atom y2 :=
          sim.nvDeref hsb (fun w hh => UnifyValue.noConfusion hh)
        rw [hta, htb]
        exact ⟨rfl, sim⟩
      | Num y2 =>
        have htb : deref t b = .Num y2 :=
          sim.nvDeref hsb (fun w hh => UnifyValue.noConfusion hh)
        rw [hta, htb]
        dsimp only
        exact ⟨decide_eq_decide.mpr (by rw [abs_sub_comm]), sim⟩
      | List y2 =>
        have htb : deref t b = .List y2 :=
          sim.nvDeref hsb (fun w hh => UnifyValue.noConfusion hh)
        rw [hta, htb]
        exact ⟨rfl, sim⟩
      | Struct y2 y3 =>
        have htb : deref t b = .Struct y2 y3 :=
          sim.nvDeref hsb (fun w hh => UnifyValue.noConfusion hh)
        rw [hta, htb]
        exact ⟨rfl, sim⟩
    | List x1 =>
      have hta : deref t a = .List x1 :=
        sim.nvDeref hsa (fun w hh => UnifyValue.noConfusion hh)
      cases hsb : deref s b with
      | Var vb =>
        obtain ⟨vb', htb⟩ := sim.varR b vb hsb
        rw [hta, htb]
        dsimp only
        have ho := occursSym s t sim vb vb' (sim.corr hsb htb) n (.List x1)
        cases hoc : occursF n s vb (.List x1) with
        | true =>
          rw [bindF_occurs_true hoc, bindF_occurs_true (ho ▸ hoc)]
          exact ⟨rfl, sim⟩
        | false =>
          rw [bindF_occurs_false hoc, bindF_occurs_false (ho ▸ hoc)]
          exact ⟨rfl, StoreSim_insert_nonvar sim hsb htb
            (fun w hh => UnifyValue.noConfusion hh)⟩
      | Atom y2 =>
        have htb : deref t b = .Atom y2 :=
          sim.nvDeref hsb (fun w hh => UnifyValue.noConfusion hh)
        rw [hta, htb]
        exact ⟨rfl, sim⟩
      | Num y2 =>
        have htb : deref t b = .Num y2 :=
          sim.nvDeref hsb (fun w hh => UnifyValue.noConfusion hh)
        rw [hta, htb]
        exact ⟨rfl, sim⟩
      | List y2 =>
        have htb : deref t b = .List y2 :=
          sim.nvDeref hsb (fun w hh => UnifyValue.noConfusion hh)
        rw [hta, htb]
        dsimp only
        by_cases hlen : x1.length = y2.length
        · rw [if_pos hlen, if_pos hlen.symm]
          exact hfold x1 y2 (s, true) (t, true) rfl sim
        · rw [if_neg hlen, if_neg (fun hh => hlen hh.symm)]
          exact ⟨rfl, sim⟩
      | Struct y2 y3 =>
        have htb : deref t b = .Struct y2 y3 :=
          sim.nvDeref hsb (fun w hh => UnifyValue.noConfusion hh)
        rw [hta, htb]
        exact ⟨rfl, sim⟩
    | Struct x1 args1 =>
      have hta : deref t a = .Struct x1 args1 :=
        sim.nvDeref hsa (fun w hh => UnifyValue.noConfusion hh)
      cases hsb : deref s b with
      | Var vb =>
        obtain ⟨vb', htb⟩ := sim.varR b vb hsb
        rw [hta, htb]
        dsimp only
        have ho := occursSym s t sim vb vb' (sim.corr hsb htb) n
          (.Struct x1 args1)
        cases hoc : occursF n s vb (.Struct x1 args1) with
        | true =>
          rw [bindF_occurs_true hoc, bindF_occurs_true (ho ▸ hoc)]
          exact ⟨rfl, sim⟩
        | false =>
          rw [bindF_occurs_false hoc, bindF_occurs_false (ho ▸ hoc)]
          exact ⟨rfl, StoreSim_insert_nonvar sim hsb htb
            (fun w hh => UnifyValue.noConfusion hh)⟩
      | Atom y2 =>
        have htb : deref t b = .Atom y2 :=
          sim.nvDeref hsb (fun w hh => UnifyValue.noConfusion hh)
        rw [hta, htb]
        exact ⟨rfl, sim⟩
      | Num y2 =>
        have htb : deref t b = .Num y2 :=
          sim.nvDeref hsb (fun w hh => UnifyValue.noConfusion hh)
        rw [hta, htb]
        exact ⟨rfl, sim⟩
      | List y2 =>
        have htb : deref t b = .List y2 :=
          sim.nvDeref hsb (fun w hh => UnifyValue.noConfusion hh)
        rw [hta, htb]
        exact ⟨rfl, sim⟩
      | Struct y2 args2 =>
        have htb : deref t b = .Struct y2 args2 :=
          sim.nvDeref hsb (fun w hh => UnifyValue.noConfusion hh)
        rw [hta, htb]
        dsimp only
        by_cases hc : x1 = y2 ∧ args1.length = args2.length
        · rw [if_pos hc, if_pos ⟨hc.1.symm, hc.2.symm⟩]
          exact hfold args1 args2 (s, true) (t, true) rfl sim
        · rw [if_neg hc, if_neg (fun hh => hc ⟨hh.1.symm, hh.2.symm⟩)]
          exact ⟨rfl, sim⟩


/-- C9: unification success is order-independent for every pair of values —
variables on both sides included — over every store on which `deref`
terminates (`derefOK`; on any other store the Rust `deref`, and hence the
`unify` call, recurses forever and never returns).  `unify a b` and
`unify b a` return the same success flag, and the two result stores present
the same substitution (`StoreSim`): identical non-variable deref results and
identical variable grouping.  Argument order therefore affects at most which
variable of a group carries the binding, never whether the call succeeds. -/
theorem C9_unify_symm :
    ∀ (fuel : Nat) (s : Subst) (a b : UnifyValue), derefOK s →
      ((unifyF fuel s a b).2 = (unifyF fuel s b a).2) ∧
      StoreSim (unifyF fuel s a b).1 (unifyF fuel s b a).1 :=
  fun fuel s a b hOK =>
    unify_symm_sim fuel s s a b
      ⟨hOK, hOK, fun _ _ => Iff.rfl, fun _ w h => ⟨w, h⟩, fun _ _ => rfl⟩

/-- C9 witness: over the empty store (trivially `derefOK`) the two-sided
variable call `unify(X, Y)` succeeds in both argument orders; the two runs
bind different variables (`X ↦ Y` versus `Y ↦ X`). -/
theorem C9_unify_symm_witness :
    (derefOK ([] : Subst)) ∧
    ((unifyF 3 [] (.Var (str "X")) (.Var (str "Y"))).2
      = (unifyF 3 [] (.Var (str "Y")) (.Var (str "X"))).2) ∧
    (unifyF 3 [] (.Var (str "X")) (.Var (str "Y"))
      = ([(str "X", .Var (str "Y"))], true)) ∧
    (unifyF 3 [] (.Var (str "Y")) (.Var (str "X"))
      = ([(str "Y", .Var (str "X"))], true)) :=
  ⟨fun x w h => rfl,
   (C9_unify_symm 3 [] (.Var (str "X")) (.Var (str "Y"))
     (fun x w h => rfl)).1,
   rfl, rfl⟩

/-! ## The APPLOG validated shared context (`src/applog/mod.rs`)

`SharedContext.bindings : HashMap<String, SharedValue>` is modelled
extensionally as a function `Str → Option SharedValue`; `rules` and the
change log are lists.  The change log is kept newest-first: consing models
`Vec::push` and taking the head models `Vec::pop`, so `checkpoint()` (the log
length) and the backward replay of `rollback` are preserved exactly. -/

/-- `Source`: provenance of a binding or rule. -/
inductive Source where
  | System
  | Grammar
  | Semantic
  | Disambiguator
  | User
  | Improvised
  deriving DecidableEq

/-- `SharedValue`: a binding's value with metadata. -/
structure SharedValue where
  value : UnifyValue
  source : Source
  confidence : ℚ
  created_at : Nat
  immutable : Bool

/-- A goal inside a rule body. -/
structure Goal where
  predicate : Str
  args : List UnifyValue

/-- `RuleBody`: fact, conjunction or disjunction of goals. -/
inductive RuleBody where
  | Fact
  | Conjunction (goals : List Goal)
  | Disjunction (goals : List Goal)

/-- `SharedRule`: a rule with id, predicate, arity, body and metadata. -/
structure SharedRule where
  id : Str
  predicate : Str
  arity : Nat
  body : RuleBody
  source : Source
  confidence : ℚ
  flexibility : ℚ

/-- `ContextChange`: one change-log entry, with enough payload to undo it. -/
inductive ContextChange where
  | BindingAdded (key : Str)
  | BindingModified (key : Str) (old : SharedValue)
  | RuleAdded (id : Str)
  | RuleRemoved (id : Str) (rule : SharedRule)

/-- `ConstraintType` from the validator. -/
inductive ConstraintType where
  | Forbidden (pred : Str)
  | MinInstances (pred : Str) (n : Nat)
  | NoContradiction (p1 p2 : Str)
  | FixedArity (pred : Str) (n : Nat)
  | NoTautology
  | Custom (name : Str)

/-- A named constraint. -/
structure Constraint where
  name : Str
  check : ConstraintType

/-- `ConstraintValidator`: invariants, evidence thresholds, protected
predicates (`evidence_required` is a `HashMap`, modelled as an association
list). -/
structure ConstraintValidator where
  invariants : List Constraint
  evidence_required : List (Str × Nat)
  protected_predicates : List Str

/-- `ValidationError` variants. -/
inductive ValidationError where
  | InvariantViolation (name : Str)
  | InsufficientEvidence (pred : Str) (required found : Nat)
  | ProtectedPredicate (pred : Str)
  | TautologyDetected
  | ContradictionDetected (msg : Str)
  | ArityMismatch (pred : Str) (expected found : Nat)
  | ImmutableBinding (key : Str)
  | UnauthorizedSource (source : Source)
  deriving DecidableEq

/-- `SharedContext`: bindings, rules, validator, change log, strict mode. -/
structure SharedContext where
  bindings : Str → Option SharedValue
  rules : List SharedRule
  validator : ConstraintValidator
  history : List ContextChange
  strict_mode : Bool

/-- Generic association-list lookup, modelling `HashMap::get`. -/
def alookup {α : Type} : List (Str × α) → Str → Option α
  | [], _ => none
  | (k, v) :: rest, key => if k = key then some v else alookup rest key

/-- `ConstraintValidator::default`: only the `no_tautology` invariant. -/
def ConstraintValidator.default : ConstraintValidator :=
  ⟨[⟨str "no_tautology", .NoTautology⟩], [], []⟩

/-- `SharedContext::new`: empty store, default validator, strict mode on. -/
def SharedContext.new : SharedContext :=
  ⟨fun _ => none, [], ConstraintValidator.default, [], true⟩

/-- `timestamp_now` is the constant `0` in the source. -/
def timestamp_now : Nat := 0

/-- `is_tautology`: a conjunction whose single goal has the head's predicate
and arity. -/
def is_tautology (rule : SharedRule) : Bool :=
  match rule.body with
  | .Fact => false
  | .Conjunction goals =>
    match goals with
    | [g] => decide (g.predicate = rule.predicate) &&
        decide (g.args.length = rule.arity)
    | _ => false
  | .Disjunction _ => false

/-- The ordered invariant checks of `validate_rule`, first failure wins. -/
def checkInvariants (rule : SharedRule) (existing : List SharedRule) :
    List Constraint → Option ValidationError
  | [] => none
  | inv :: rest =>
    match inv.check with
    | .NoTautology =>
      if is_tautology rule then some .TautologyDetected
      else checkInvariants rule existing rest
    | .Forbidden pred =>
      if rule.predicate = pred then some (.InvariantViolation inv.name)
      else checkInvariants rule existing rest
    | .FixedArity pred expected =>
      if rule.predicate = pred ∧ rule.arity ≠ expected then
        some (.ArityMismatch pred expected rule.arity)
      else checkInvariants rule existing rest
    | .NoContradiction p1 p2 =>
      if rule.predicate = p1 ∧ existing.any (fun ex => decide (ex.predicate = p2))
      then some (.ContradictionDetected (p1 ++ str " vs " ++ p2))
      else checkInvariants rule existing rest
    | _ => checkInvariants rule existing rest

/-- `ConstraintValidator::validate_rule`: protected predicates (for
improvised sources), then the invariants in order, then minimum evidence. -/
def ConstraintValidator.validate_rule (v : ConstraintValidator)
    (rule : SharedRule) (existing : List SharedRule) :
    Option ValidationError :=
  if rule.source = .Improvised ∧ v.protected_predicates.contains rule.predicate
  then some (.ProtectedPredicate rule.predicate)
  else
    match checkInvariants rule existing v.invariants with
    | some e => some e
    | none =>
      match alookup v.evidence_required rule.predicate with
      | some minc =>
        let count :=
          (existing.filter fun r => decide (r.predicate = rule.predicate)).length
        if count < minc ∧ rule.source = .Improvised then
          some (.InsufficientEvidence rule.predicate minc count)
        else none
      | none => none

/-- Pointwise update of the (extensionally modelled) bindings map. -/
def updateB (f : Str → Option SharedValue) (key : Str)
    (v : Option SharedValue) : Str → Option SharedValue :=
  fun k => if k = key then v else f k

/-- `SharedContext::get`. -/
def SharedContext.get (ctx : SharedContext) (key : Str) :
    Option SharedValue :=
  ctx.bindings key

/-- `SharedContext::set`: immutable check (error, nothing recorded), then the
change-log push, then the improvised-source confidence check (error, but the
log entry stays pushed, as on the Rust `&mut self`), then the insert. -/
def SharedContext.set (ctx : SharedContext) (key : Str) (value : UnifyValue)
    (source : Source) (confidence : ℚ) :
    SharedContext × Option ValidationError :=
  match ctx.bindings key with
  | some existing =>
    if existing.immutable then (ctx, some (.ImmutableBinding key))
    else if source = .Improvised ∧ ctx.strict_mode ∧ confidence < q 4 5 then
      ({ ctx with history := .BindingModified key existing :: ctx.history },
        some (.UnauthorizedSource source))
    else
      ({ ctx with
          history := .BindingModified key existing :: ctx.history,
          bindings := updateB ctx.bindings key
            (some ⟨value, source, confidence, timestamp_now, false⟩) }, none)
  | none =>
    if source = .Improvised ∧ ctx.strict_mode ∧ confidence < q 4 5 then
      ({ ctx with history := .BindingAdded key :: ctx.history },
        some (.UnauthorizedSource source))
    else
      ({ ctx with
          history := .BindingAdded key :: ctx.history,
          bindings := updateB ctx.bindings key
            (some ⟨value, source, confidence, timestamp_now, false⟩) }, none)

/-- `SharedContext::set_immutable`: fails if the key exists at all; otherwise
logs and inserts an immutable binding with confidence `1.0`. -/
def SharedContext.set_immutable (ctx : SharedContext) (key : Str)
    (value : UnifyValue) (source : Source) :
    SharedContext × Option ValidationError :=
  if (ctx.bindings key).isSome then (ctx, some (.ImmutableBinding key))
  else
    ({ ctx with
        history := .BindingAdded key :: ctx.history,
        bindings := updateB ctx.bindings key
          (some ⟨value, source, 1, timestamp_now, true⟩) }, none)

/-- `SharedContext::add_rule`: validate, then log and append. -/
def SharedContext.add_rule (ctx : SharedContext) (rule : SharedRule) :
    SharedContext × Option ValidationError :=
  match ctx.validator.validate_rule rule ctx.rules with
  | some e => (ctx, some e)
  | none =>
    ({ ctx with
        history := .RuleAdded rule.id :: ctx.history,
        rules := ctx.rules ++ [rule] }, none)

/-- `SharedContext::find_rules`. -/
def SharedContext.find_rules (ctx : SharedContext) (pred : Str) :
    List SharedRule :=
  ctx.rules.filter fun r => decide (r.predicate = pred)

/-- `SharedContext::checkpoint`: the current log length. -/
def SharedContext.checkpoint (ctx : SharedContext) : Nat :=
  ctx.history.length

/-- The undo action of one popped change-log entry. -/
def applyChange (ctx : SharedContext) : ContextChange → SharedContext
  | .BindingAdded key => { ctx with bindings := updateB ctx.bindings key none }
  | .BindingModified key old =>
    { ctx with bindings := updateB ctx.bindings key (some old) }
  | .RuleAdded id =>
    { ctx with rules := ctx.rules.filter fun r => decide (¬ r.id = id) }
  | .RuleRemoved id rule =>
    { ctx with rules := ctx.rules ++ [{ rule with id := id }] }

/-- The pop loop of `rollback`, unrolled on the number of entries to pop
(`history.len() - checkpoint` pops, each undoing the newest entry). -/
def rollbackGo : Nat → SharedContext → SharedContext
  | 0, ctx => ctx
  | n + 1, ctx =>
    match ctx.history with
    | [] => ctx
    | ch :: rest => rollbackGo n (applyChange { ctx with history := rest } ch)

/-- `SharedContext::rollback`: replay the log backward to the checkpoint. -/
def SharedContext.rollback (ctx : SharedContext) (cp : Nat) : SharedContext :=
  rollbackGo (ctx.history.length - cp) ctx

/-- C1: the code contradicts the claim.  On a fresh strict-mode context,
`set("x", Atom "v", Improvised, 0.5)` fails with `UnauthorizedSource`, and the
store is indeed left unchanged (`get "x"` is still `none`), but the undo-log
entry was pushed *before* the improvised-source confidence check, so the
change-log length observed via `checkpoint()` grows from 0 to 1 across the
failed call. -/
theorem C1_failed_set_grows_change_log :
    ((SharedContext.new.set (str "x") (.Atom (str "v")) .Improvised (q 1 2)).2
      = some (.UnauthorizedSource .Improvised)) ∧
    ((SharedContext.new.set (str "x") (.Atom (str "v")) .Improvised
      (q 1 2)).1.checkpoint = 1) ∧
    (SharedContext.new.checkpoint = 0) ∧
    ((SharedContext.new.set (str "x") (.Atom (str "v")) .Improvised
      (q 1 2)).1.get (str "x") = none) :=
  ⟨rfl, rfl, rfl, rfl⟩

/-- C10: the frame property of `set`.  Whether the call succeeds or fails,
every binding under a key other than the written one is unchanged, and the
rule list is unchanged. -/
theorem C10_set_frame :
    ∀ (ctx : SharedContext) (key : Str) (value : UnifyValue)
      (source : Source) (confidence : ℚ) (k : Str), k ≠ key →
      ((ctx.set key value source confidence).1.get k = ctx.get k) ∧
      ((ctx.set key value source confidence).1.rules = ctx.rules) := by
  intro ctx key value source confidence k hk
  unfold SharedContext.set SharedContext.get
  cases hx : ctx.bindings key with
  | some existing =>
    by_cases him : existing.immutable
    · simp [him]
    · by_cases hval : source = .Improvised ∧ ctx.strict_mode ∧ confidence < q 4 5
      · simp [him, hval]
      · simp [him, hval, updateB, hk]
  | none =>
    by_cases hval : source = .Improvised ∧ ctx.strict_mode ∧ confidence < q 4 5
    · simp [hval]
    · simp [hval, updateB, hk]

/-- C10 witness: a write to key `a` on a fresh context leaves the binding of
key `b` and the rule list untouched. -/
theorem C10_set_frame_witness :
    ((['b'] : Str) ≠ ['a']) ∧
    ((SharedContext.new.set ['a'] (.Num 1) .User 1).1.get ['b']
      = SharedContext.new.get ['b']) ∧
    ((SharedContext.new.set ['a'] (.Num 1) .User 1).1.rules
      = SharedContext.new.rules) := by
  have h := C10_set_frame SharedContext.new ['a'] (.Num 1) .User 1 ['b']
    (by decide)
  exact ⟨by decide, h.1, h.2⟩

/-! ### Rollback exactness (claim C6) -/

/-- The mutating calls quantified over by the rollback-exactness claim. -/
inductive CtxOp where
  | set (key : Str) (value : UnifyValue) (source : Source) (confidence : ℚ)
  | add_rule (rule : SharedRule)

/-- Applying one mutating call, keeping the resulting state (the error result,
if any, is discarded: failed calls are part of the quantified sequences). -/
def applyOp (ctx : SharedContext) : CtxOp → SharedContext
  | .set k v src c => (ctx.set k v src c).1
  | .add_rule r => (ctx.add_rule r).1

/-- Applying a sequence of mutating calls in order. -/
def applyOps (ctx : SharedContext) (ops : List CtxOp) : SharedContext :=
  ops.foldl applyOp ctx

/-- Every rule added along the sequence carries an id distinct from every rule
id present at that point (the data model declares rule ids unique;
`rollback` undoes `RuleAdded` entries by filtering on the id). -/
def idsFresh : SharedContext → List CtxOp → Bool
  | _, [] => true
  | ctx, op :: rest =>
    (match op with
     | .add_rule r => !(ctx.rules.any fun x => decide (x.id = r.id))
     | _ => true) && idsFresh (applyOp ctx op) rest

theorem applyOp_history_len (ctx : SharedContext) (op : CtxOp) :
    ctx.history.length ≤ (applyOp ctx op).history.length := by
  cases op with
  | set key value source confidence =>
    unfold applyOp SharedContext.set
    cases hx : ctx.bindings key with
    | some existing =>
      by_cases him : existing.immutable
      · simp [hx, him]
      · by_cases hval : source = .Improvised ∧ ctx.strict_mode ∧
          confidence < q 4 5
        · simp [hx, him, hval]
        · simp [hx, him, hval]
    | none =>
      by_cases hval : source = .Improvised ∧ ctx.strict_mode ∧
        confidence < q 4 5
      · simp [hx, hval]
      · simp [hx, hval]
  | add_rule r =>
    unfold applyOp SharedContext.add_rule
    cases hv : ctx.validator.validate_rule r ctx.rules with
    | some e => simp [hv]
    | none => simp [hv]

theorem rollback_push (ctx : SharedContext) (e : ContextChange) (cp : Nat)
    (hcp : cp ≤ ctx.history.length) (ctx' : SharedContext)
    (hh : ctx'.history = e :: ctx.history)
    (hundo : applyChange { ctx' with history := ctx.history } e = ctx) :
    ctx'.rollback cp = ctx.rollback cp := by
  unfold SharedContext.rollback
  rw [hh]
  have hlen : (e :: ctx.history).length - cp = (ctx.history.length - cp) + 1 := by
    simp only [List.length_cons]
    omega
  rw [hlen]
  have hstep : rollbackGo ((ctx.history.length - cp) + 1) ctx'
      = rollbackGo (ctx.history.length - cp)
        (applyChange { ctx' with history := ctx.history } e) := by
    conv_lhs => rw [rollbackGo]
    rw [hh]
  rw [hstep, hundo]

theorem updateB_restore (b : Str → Option SharedValue) (key : Str)
    (v w : Option SharedValue) (hx : b key = w) :
    updateB (updateB b key v) key w = b := by
  funext kk
  by_cases hkk : kk = key
  · simp [updateB, hkk, hx.symm]
  · simp [updateB, hkk]

theorem updateB_noop (b : Str → Option SharedValue) (key : Str)
    (w : Option SharedValue) (hx : b key = w) : updateB b key w = b := by
  funext kk
  by_cases hkk : kk = key
  · simp [updateB, hkk, hx.symm]
  · simp [updateB, hkk]

theorem rollback_applyOp (ctx : SharedContext) (op : CtxOp) (cp : Nat)
    (hcp : cp ≤ ctx.history.length)
    (hid : ∀ r, op = .add_rule r →
      (ctx.rules.any fun x => decide (x.id = r.id)) = false) :
    (applyOp ctx op).rollback cp = ctx.rollback cp := by
  cases op with
  | set key value source confidence =>
    unfold applyOp SharedContext.set
    dsimp only
    cases hx : ctx.bindings key with
    | some existing =>
      dsimp only
      by_cases him : existing.immutable = true
      · rw [if_pos him]
      · rw [if_neg him]
        by_cases hval : source = .Improvised ∧ ctx.strict_mode = true ∧
          confidence < q 4 5
        · rw [if_pos hval]
          refine rollback_push ctx (.BindingModified key existing) cp hcp _
            rfl ?_
          show ({ ctx with
            bindings := updateB ctx.bindings key (some existing) } :
              SharedContext) = ctx
          rw [updateB_noop ctx.bindings key (some existing) hx]
        · rw [if_neg hval]
          refine rollback_push ctx (.BindingModified key existing) cp hcp _
            rfl ?_
          show ({ ctx with
            bindings := updateB (updateB ctx.bindings key
              (some ⟨value, source, confidence, timestamp_now, false⟩)) key
              (some existing) } : SharedContext) = ctx
          rw [updateB_restore ctx.bindings key _ (some existing) hx]
    | none =>
      dsimp only
      by_cases hval : source = .Improvised ∧ ctx.strict_mode = true ∧
        confidence < q 4 5
      · rw [if_pos hval]
        refine rollback_push ctx (.BindingAdded key) cp hcp _ rfl ?_
        show ({ ctx with
          bindings := updateB ctx.bindings key none } : SharedContext) = ctx
        rw [updateB_noop ctx.bindings key none hx]
      · rw [if_neg hval]
        refine rollback_push ctx (.BindingAdded key) cp hcp _ rfl ?_
        show ({ ctx with
          bindings := updateB (updateB ctx.bindings key
            (some ⟨value, source, confidence, timestamp_now, false⟩)) key
            none } : SharedContext) = ctx
        rw [updateB_restore ctx.bindings key _ none hx]
  | add_rule r =>
    unfold applyOp SharedContext.add_rule
    dsimp only
    cases hv : ctx.validator.validate_rule r ctx.rules with
    | some e => rfl
    | none =>
      dsimp only
      refine rollback_push ctx (.RuleAdded r.id) cp hcp _ rfl ?_
      show ({ ctx with
        rules := (ctx.rules ++ [r]).filter fun x => decide (¬ x.id = r.id) } :
          SharedContext) = ctx
      have hr : ∀ x ∈ ctx.rules, decide (¬ x.id = r.id) = true := by
        intro x hxm
        have := hid r rfl
        simp only [List.any_eq_false, decide_eq_true_eq] at this
        simpa using this x hxm
      rw [List.filter_append, List.filter_eq_self.mpr hr]
      simp

theorem rollback_applyOps (ops : List CtxOp) :
    ∀ (ctx : SharedContext) (cp : Nat), cp ≤ ctx.history.length →
      idsFresh ctx ops = true →
      (applyOps ctx ops).rollback cp = ctx.rollback cp := by
  induction ops with
  | nil => intro ctx cp _ _; rfl
  | cons op rest ih =>
    intro ctx cp hcp hfresh
    simp only [idsFresh, Bool.and_eq_true] at hfresh
    have h1 : (applyOps (applyOp ctx op) rest).rollback cp
        = (applyOp ctx op).rollback cp :=
      ih (applyOp ctx op) cp
        (le_trans hcp (applyOp_history_len ctx op)) hfresh.2
    have h2 : (applyOp ctx op).rollback cp = ctx.rollback cp := by
      apply rollback_applyOp ctx op cp hcp
      intro r hop
      subst hop
      simpa using hfresh.1
    calc (applyOps ctx (op :: rest)).rollback cp
        = (applyOps (applyOp ctx op) rest).rollback cp := rfl
      _ = (applyOp ctx op).rollback cp := h1
      _ = ctx.rollback cp := h2

theorem rollback_to_own_checkpoint (ctx : SharedContext) :
    ctx.rollback ctx.checkpoint = ctx := by
  unfold SharedContext.rollback SharedContext.checkpoint
  rw [Nat.sub_self]
  rfl

/-- C6 (amended): rollback exactness holds for every sequence of `set` and
`add_rule` calls after a checkpoint, successful or failed, provided every
rule added after the checkpoint carries an id distinct from the rule ids
present when it is added (the uniqueness the `SharedRule::id` field is
documented to have).  Under that proviso `rollback(checkpoint())` restores
the context exactly — in particular every `get` and every `find_rules`
result. -/
theorem C6_rollback_exact :
    ∀ (ctx : SharedContext) (ops : List CtxOp), idsFresh ctx ops = true →
      (applyOps ctx ops).rollback ctx.checkpoint = ctx := by
  intro ctx ops hfresh
  rw [rollback_applyOps ops ctx ctx.checkpoint (le_refl _) hfresh]
  exact rollback_to_own_checkpoint ctx

/-- The two rules of the C6 counterexample share the id `"r"` but have
different predicates. -/
def rulePdup : SharedRule := ⟨str "r", str "p", 0, .Fact, .User, q 9 10, q 1 2⟩

/-- Second rule with the same id as `rulePdup`. -/
def ruleQdup : SharedRule := ⟨str "r", str "q", 0, .Fact, .User, q 9 10, q 1 2⟩

/-- C6 (counterexample to the claim as stated): with duplicate rule ids the
claim fails.  Add a rule with id `"r"` for predicate `"p"`, take a
checkpoint, add another rule with the same id `"r"` for predicate `"q"`, and
roll back: the `RuleAdded` undo filters out *both* rules with id `"r"`, so
`find_rules "p"` no longer returns the pre-checkpoint rule. -/
theorem C6_counterexample_duplicate_rule_id :
    (((((SharedContext.new.add_rule rulePdup).1.add_rule ruleQdup).1.rollback
        (SharedContext.new.add_rule rulePdup).1.checkpoint).find_rules
        (str "p")).length = 0) ∧
    ((((SharedContext.new.add_rule rulePdup).1.find_rules (str "p")).length
      = 1)) :=
  ⟨rfl, rfl⟩

/-- C6 witness: instantiates the amended theorem on a fresh context with one
`set` and one `add_rule` after the checkpoint. -/
theorem C6_rollback_exact_witness :
    (idsFresh SharedContext.new
      [.set (str "a") (.Atom (str "v")) .User (q 9 10),
        .add_rule rulePdup] = true) ∧
    ((applyOps SharedContext.new
      [.set (str "a") (.Atom (str "v")) .User (q 9 10),
        .add_rule rulePdup]).rollback SharedContext.new.checkpoint
      = SharedContext.new) :=
  ⟨rfl, C6_rollback_exact SharedContext.new
    [.set (str "a") (.Atom (str "v")) .User (q 9 10),
      .add_rule rulePdup] rfl⟩

/-! ## The character matcher (`src/chars/mod.rs`)

The dictionary `HashSet<String>` is modelled as a duplicate-free list in
insertion order, and the inverted letter index `HashMap<char, Vec<String>>`
as a function `Char → List Str` (every bucket starts empty, as
`or_insert_with(Vec::new)` arranges).  Iteration order over `HashSet`/
`HashMap` contents, which Rust leaves unspecified, is fixed to first-insertion
order; it influences only tie-breaking among equal scores. -/

/-- Accent folding of `chars::normalize_word` (this table also covers the
circumflex vowels, unlike the one in `uniform`). -/
def foldAccentCh (c : Char) : Char :=
  if c = 'á' ∨ c = 'à' ∨ c = 'ä' ∨ c = 'â' then 'a'
  else if c = 'é' ∨ c = 'è' ∨ c = 'ë' ∨ c = 'ê' then 'e'
  else if c = 'í' ∨ c = 'ì' ∨ c = 'ï' ∨ c = 'î' then 'i'
  else if c = 'ó' ∨ c = 'ò' ∨ c = 'ö' ∨ c = 'ô' then 'o'
  else if c = 'ú' ∨ c = 'ù' ∨ c = 'ü' ∨ c = 'û' then 'u'
  else if c = 'ñ' then 'n'
  else c

/-- `chars::normalize_word`: lowercase, strip accents, keep alphabetic. -/
def normalize_word (w : Str) : Str :=
  ((strLower w).map foldAccentCh).filter isAlphabeticCh

/-- `CharMatchConfig`. -/
structure CharMatchConfig where
  weight_jaccard : ℚ
  weight_positional : ℚ
  weight_length : ℚ
  weight_levenshtein : ℚ
  max_candidates : Nat
  min_similarity : ℚ

/-- `CharMatchConfig::default`: weights 0.40/0.15/0.15/0.30, 15 candidates,
floor 0.25. -/
def CharMatchConfig.default : CharMatchConfig :=
  ⟨q 2 5, q 3 20, q 3 20, q 3 10, 15, q 1 4⟩

/-- `ScoreBreakdown`. -/
structure ScoreBreakdown where
  jaccard : ℚ
  positional : ℚ
  length : ℚ
  levenshtein : ℚ
  deriving DecidableEq

/-- `MatchResult`. -/
structure MatchResult where
  word : Str
  score : ℚ
  breakdown : ScoreBreakdown
  deriving DecidableEq

/-- `CharMatcher`: dictionary, inverted letter index and configuration. -/
structure CharMatcher where
  dictionary : List Str
  letter_index : Char → List Str
  config : CharMatchConfig

/-- `CharMatcher::new`. -/
def CharMatcher.new : CharMatcher := ⟨[], fun _ => [], CharMatchConfig.default⟩

/-- Appending a word to one character's index bucket (the
`entry(c).or_insert_with(Vec::new).push(word)` step). -/
def indexAdd (idx : Char → List Str) (c : Char) (w : Str) : Char → List Str :=
  fun c' => if c' = c then idx c' ++ [w] else idx c'

/-- `CharMatcher::add_word`: normalize, skip empty results, insert into the
dictionary (set semantics) and push the word onto the bucket of every
character of the normalized word — once per *occurrence*, as the source
iterates `normalized.chars()` without deduplication. -/
def CharMatcher.add_word (m : CharMatcher) (word : Str) : CharMatcher :=
  let normalized := normalize_word word
  if normalized.isEmpty then m
  else
    { m with
      dictionary :=
        if m.dictionary.contains normalized then m.dictionary
        else m.dictionary ++ [normalized],
      letter_index :=
        normalized.foldl (fun idx c => indexAdd idx c normalized)
          m.letter_index }

/-- `CharMatcher::load_dictionary`: lowercases and adds each word. -/
def CharMatcher.load_dictionary (m : CharMatcher) (words : List Str) :
    CharMatcher :=
  words.foldl (fun acc w => acc.add_word (strLower w)) m

/-- `CharMatcher::is_valid`. -/
def CharMatcher.is_valid (m : CharMatcher) (word : Str) : Bool :=
  m.dictionary.contains (normalize_word word)

/-- `CharMatcher::dictionary_size`. -/
def CharMatcher.dictionary_size (m : CharMatcher) : Nat := m.dictionary.length

/-- The distinct characters of a string in first-occurrence order (models a
`HashSet<char>` built with `collect()`). -/
def charSet (l : Str) : List Char :=
  l.foldl (fun acc c => if acc.contains c then acc else acc ++ [c]) []

/-- `jaccard_similarity`: |A ∩ B| / |A ∪ B| on character sets. -/
def jaccard_similarity (a b : Str) : ℚ :=
  let sa := charSet a
  let sb := charSet b
  let intersection := (sa.filter fun c => sb.contains c).length
  let numUnion := (charSet (a ++ b)).length
  if numUnion = 0 then 1 else (intersection : ℚ) / numUnion

/-- `positional_similarity`: same-index matches over the longer length. -/
def positional_similarity (a b : Str) : ℚ :=
  let max_len := max a.length b.length
  if max_len = 0 then 1
  else (((a.zip b).filter fun p => decide (p.1 = p.2)).length : ℚ) / max_len

/-- `length_similarity`: `1 - |Δlen| / max len`. -/
def length_similarity (a b : Str) : ℚ :=
  let max_len := max a.length b.length
  if max_len = 0 then 1
  else 1 - ((((a.length : ℤ) - b.length).natAbs : ℚ) / max_len)

/-- `levenshtein_distance` by the classic cost-1 insert/delete/substitute
recurrence (the Rust code tabulates exactly these values in a DP matrix). -/
def levenshtein_distance : Str → Str → Nat
  | [], b => b.length
  | a, [] => a.length
  | x :: xs, y :: ys =>
    let cost : Nat := if x = y then 0 else 1
    min (min (levenshtein_distance xs (y :: ys) + 1)
      (levenshtein_distance (x :: xs) ys + 1))
      (levenshtein_distance xs ys + cost)

/-- `levenshtein_similarity`: `1 - distance / max len`. -/
def levenshtein_similarity (a b : Str) : ℚ :=
  let distance := levenshtein_distance a b
  let max_len := max a.length b.length
  if max_len = 0 then 1 else 1 - ((distance : ℚ) / max_len)

/-- `CharMatcher::calculate_score`: the four metrics and their weighted sum. -/
def CharMatcher.calculate_score (m : CharMatcher) (input candidate : Str) :
    MatchResult :=
  let breakdown : ScoreBreakdown :=
    ⟨jaccard_similarity input candidate,
      positional_similarity input candidate,
      length_similarity input candidate,
      levenshtein_similarity input candidate⟩
  let score := m.config.weight_jaccard * breakdown.jaccard
    + m.config.weight_positional * breakdown.positional
    + m.config.weight_length * breakdown.length
    + m.config.weight_levenshtein * breakdown.levenshtein
  ⟨candidate, score, breakdown⟩

/-- Stable insertion step of the descending sort on a rational key. -/
def insDesc {α : Type} (key : α → ℚ) (x : α) : List α → List α
  | [] => [x]
  | y :: ys => if key y ≤ key x then x :: y :: ys else y :: insDesc key x ys

/-- Stable descending sort by a rational key.  `Vec::sort_by` is a stable
sort, and its comparator (`b.score.partial_cmp(&a.score)` with ties treated
as equal) is the total descending order on the rational model, so the
sorted output is uniquely determined and equals this insertion sort. -/
def sortByDesc {α : Type} (key : α → ℚ) (l : List α) : List α :=
  l.foldr (insDesc key) []

/-- One `*candidate_scores.entry(word).or_insert(0) += 1` step on the tally
(association list in first-seen order). -/
def bumpScore : List (Str × Nat) → Str → List (Str × Nat)
  | [], w => [(w, 1)]
  | (k, n) :: rest, w =>
    if k = w then (k, n + 1) :: rest else (k, n) :: bumpScore rest w

/-- `CharMatcher::find_candidates`: exact dictionary hits return alone with a
perfect breakdown; otherwise tally shared letters through the inverted index,
keep candidates sharing at least `max(⌈0.5·|charset|⌉, 1)` letters, score,
filter by `min_similarity`, sort descending and truncate. -/
def CharMatcher.find_candidates (m : CharMatcher) (input : Str) :
    List MatchResult :=
  let normalized := normalize_word input
  if normalized.isEmpty then []
  else if m.dictionary.contains normalized then
    [⟨normalized, 1, ⟨1, 1, 1, 1⟩⟩]
  else
    let input_chars := charSet normalized
    let candidate_scores :=
      input_chars.foldl (fun sc c => (m.letter_index c).foldl bumpScore sc) []
    let min_shared := (((input_chars.length : ℚ) * (q 1 2)).ceil).toNat
    let candidates :=
      (candidate_scores.filter fun p => max min_shared 1 ≤ p.2).map Prod.fst
    let results :=
      (candidates.map fun c => m.calculate_score normalized c).filter
        fun r => m.config.min_similarity ≤ r.score
    (sortByDesc (fun r => r.score) results).take m.config.max_candidates

/-- C5 (counterexample to the claim as stated): after `add_word "casa"` on an
empty matcher the bucket of `'a'` holds the word twice — `add_word` indexes
per character occurrence, not per distinct character, so a bucket can contain
a given word more than once. -/
theorem C5_counterexample_duplicate_index_entries :
    (CharMatcher.new.add_word (str "casa")).letter_index 'a'
      = [str "casa", str "casa"] := rfl

/-- C5 (amended): after `add_word`, each character bucket is extended by one
entry per *occurrence* of that character in the normalized word (and left
unchanged when normalization yields the empty string).  Repeated letters in
one word therefore produce duplicate bucket entries, which inflate the
per-candidate shared-letter tallies of `find_candidates`. -/
theorem C5_index_entries_per_occurrence :
    ∀ (m : CharMatcher) (w : Str) (c : Char),
      (m.add_word w).letter_index c
        = if (normalize_word w).isEmpty then m.letter_index c
          else m.letter_index c ++
            List.replicate ((normalize_word w).count c) (normalize_word w) := by
  intro m w c
  have hfold : ∀ (chars : List Char) (idx : Char → List Str) (word : Str),
      (chars.foldl (fun idx2 d => indexAdd idx2 d word) idx) c
        = idx c ++ List.replicate (chars.count c) word := by
    intro chars
    induction chars with
    | nil => intro idx word; simp
    | cons d ds ih =>
      intro idx word
      simp only [List.foldl_cons]
      rw [ih]
      by_cases hd : d = c
      · subst hd
        have h1 : indexAdd idx d word d = idx d ++ [word] := by
          simp [indexAdd]
        have h2 : (d :: ds).count d = ds.count d + 1 := by
          simp [List.count_cons]
        rw [h1, h2, List.append_assoc]
        congr 1
      · have hcd : ¬ c = d := fun hh => hd hh.symm
        have h1 : indexAdd idx d word c = idx c := by
          simp [indexAdd, hcd]
        have h2 : (d :: ds).count c = ds.count c := by
          simp [List.count_cons, hd]
        rw [h1]
        try rw [h2]
  unfold CharMatcher.add_word
  by_cases h : (normalize_word w).isEmpty
  · simp [h]
  · simp only [h, Bool.false_eq_true, if_false]
    exact hfold (normalize_word w) m.letter_index (normalize_word w)

/-! ## The Spanish grammar engine (`src/grammar/mod.rs`, types from
`src/tao/mod.rs`)

The lexicon `HashMap`s are modelled as association lists in insertion order
and the `HashSet`s as lists; `classify_token` only performs lookups, so the
order matters solely for which `VerbInfo` is returned when several verbs
share a conjugation key (none do in the base vocabulary). -/

/-- Grammatical person. -/
inductive Person where
  | First
  | Second
  | Third
  deriving DecidableEq

/-- Grammatical number. -/
inductive GNumber where
  | Singular
  | Plural
  deriving DecidableEq

/-- Verb tense. -/
inductive Tense where
  | Present
  | Past
  | Future
  | Imperfect
  | Conditional
  | Subjunctive
  deriving DecidableEq

/-- Semantic verb category. -/
inductive VerbCategory where
  | Action
  | State
  | Movement
  | Perception
  | Emotion
  | Cognitive
  deriving DecidableEq

/-- Grammatical gender. -/
inductive Gender where
  | Masculine
  | Feminine
  | Neutral
  deriving DecidableEq

/-- Noun category. -/
inductive NounCategory where
  | Person
  | Place
  | Thing
  | Animal
  | Concept
  | Time
  deriving DecidableEq

/-- Pronoun case. -/
inductive PronounCase where
  | Subject
  | DirectObj
  | IndirectObj
  | Reflexive
  deriving DecidableEq

/-- One conjugated form's person/number/tense. -/
structure Conjugation where
  person : Person
  number : GNumber
  tense : Tense
  deriving DecidableEq

/-- `VerbInfo`: infinitive, transitivity, conjugation table, category. -/
structure VerbInfo where
  infinitive : Str
  transitive : Bool
  conjugations : List (Str × Conjugation)
  category : VerbCategory
  deriving DecidableEq

/-- `NounInfo`. -/
structure NounInfo where
  gender : Gender
  number : GNumber
  category : NounCategory
  can_be_subject : Bool
  can_be_object : Bool
  deriving DecidableEq

/-- `ArticleInfo`. -/
structure ArticleInfo where
  definite : Bool
  gender : Gender
  number : GNumber
  deriving DecidableEq

/-- `PronounInfo` (`pcase` renders the Rust field `case`, a reserved word
here). -/
structure PronounInfo where
  person : Person
  number : GNumber
  pcase : PronounCase
  deriving DecidableEq

/-- `SentenceType` (from `tao`). -/
inductive SentenceType where
  | SVO
  | OVS
  | VSO
  | SV
  | Impersonal
  | Unknown
  deriving DecidableEq

/-- `GrammaticalRole` (from `tao`). -/
inductive GrammaticalRole where
  | Subject
  | Verb
  | DirectObject
  | IndirectObject
  | Complement
  | Adjective
  | Adverb
  | Preposition
  | Article
  | Conjunction
  | Punctuation
  deriving DecidableEq

/-- `GrammaticalComponent` (from `tao`). -/
structure GrammaticalComponent where
  role : GrammaticalRole
  tokens : List Nat
  head : Option Nat
  deriving DecidableEq

/-- `GrammaticalStructure` (from `tao`). -/
structure GrammaticalStructure where
  sentence_type : SentenceType
  components : List GrammaticalComponent
  inferred_theme : Option Str
  deriving DecidableEq

/-- `ExpectedWord`: the role/category expectation recorded for a slot. -/
structure ExpectedWord where
  roles : List GrammaticalRole
  categories : List Str
  required : Bool
  deriving DecidableEq

/-- `IssueSeverity`. -/
inductive IssueSeverity where
  | Error
  | Warning
  | Info
  deriving DecidableEq

/-- `GrammarIssue` (the analyzer never produces one, but the field exists). -/
structure GrammarIssue where
  position : Nat
  severity : IssueSeverity
  message : Str
  deriving DecidableEq

/-- `GrammarAnalysis` (`structure_` renders the Rust field `structure`, a
reserved word here; `expected_at` models the `HashMap<usize, ExpectedWord>`
extensionally). -/
structure GrammarAnalysis where
  structure_ : GrammaticalStructure
  validity_score : ℚ
  issues : List GrammarIssue
  expected_at : Nat → Option ExpectedWord

/-- `TokenType`: the classification of one token. -/
inductive TokenType where
  | Verb (info : VerbInfo)
  | Noun (info : NounInfo)
  | Article (info : ArticleInfo)
  | Adjective
  | Preposition
  | Pronoun (info : PronounInfo)
  | Adverb
  | Conjunction
  | Unknown
  deriving DecidableEq

/-- `SpanishGrammar`: the lexicon maps/sets. -/
structure SpanishGrammar where
  verbs : List (Str × VerbInfo)
  nouns : List (Str × NounInfo)
  adjectives : List Str
  prepositions : List Str
  articles : List (Str × ArticleInfo)
  pronouns : List (Str × PronounInfo)
  conjunctions : List Str
  adverbs : List Str

/-- Association-list insert with replacement, modelling `HashMap::insert`. -/
def ainsert {α : Type} : List (Str × α) → Str → α → List (Str × α)
  | [], key, v => [(key, v)]
  | (k, w) :: rest, key, v =>
    if k = key then (key, v) :: rest else (k, w) :: ainsert rest key v

/-- `verbs` entry for *gustar*. -/
def verbGustar : Str × VerbInfo :=
  (str "gustar",
    ⟨str "gustar", false,
      [(str "gusta", ⟨.Third, .Singular, .Present⟩),
        (str "gustan", ⟨.Third, .Plural, .Present⟩),
        (str "gustó", ⟨.Third, .Singular, .Past⟩)],
      .Emotion⟩)

/-- `verbs` entry for *ser*. -/
def verbSer : Str × VerbInfo :=
  (str "ser",
    ⟨str "ser", false,
      [(str "soy", ⟨.First, .Singular, .Present⟩),
        (str "eres", ⟨.Second, .Singular, .Present⟩),
        (str "es", ⟨.Third, .Singular, .Present⟩),
        (str "somos", ⟨.First, .Plural, .Present⟩),
        (str "son", ⟨.Third, .Plural, .Present⟩)],
      .State⟩)

/-- `verbs` entry for *estar*. -/
def verbEstar : Str × VerbInfo :=
  (str "estar",
    ⟨str "estar", false,
      [(str "estoy", ⟨.First, .Singular, .Present⟩),
        (str "estás", ⟨.Second, .Singular, .Present⟩),
        (str "está", ⟨.Third, .Singular, .Present⟩),
        (str "estamos", ⟨.First, .Plural, .Present⟩),
        (str "están", ⟨.Third, .Plural, .Present⟩)],
      .State⟩)

/-- `verbs` entry for *visitar*. -/
def verbVisitar : Str × VerbInfo :=
  (str "visitar",
    ⟨str "visitar", true,
      [(str "visito", ⟨.First, .Singular, .Present⟩),
        (str "visitas", ⟨.Second, .Singular, .Present⟩),
        (str "visita", ⟨.Third, .Singular, .Present⟩),
        (str "visité", ⟨.First, .Singular, .Past⟩),
        (str "visitó", ⟨.Third, .Singular, .Past⟩)],
      .Movement⟩)

/-- `verbs` entry for *correr*. -/
def verbCorrer : Str × VerbInfo :=
  (str "correr",
    ⟨str "correr", false,
      [(str "corro", ⟨.First, .Singular, .Present⟩),
        (str "corres", ⟨.Second, .Singular, .Present⟩),
        (str "corre", ⟨.Third, .Singular, .Present⟩),
        (str "corremos", ⟨.First, .Plural, .Present⟩),
        (str "corren", ⟨.Third, .Plural, .Present⟩)],
      .Action⟩)

/-- `verbs` entry for *ir*. -/
def verbIr : Str × VerbInfo :=
  (str "ir",
    ⟨str "ir", false,
      [(str "voy", ⟨.First, .Singular, .Present⟩),
        (str "vas", ⟨.Second, .Singular, .Present⟩),
        (str "va", ⟨.Third, .Singular, .Present⟩),
        (str "vamos", ⟨.First, .Plural, .Present⟩),
        (str "van", ⟨.Third, .Plural, .Present⟩),
        (str "fui", ⟨.First, .Singular, .Past⟩),
        (str "fue", ⟨.Third, .Singular, .Past⟩)],
      .Movement⟩)

/-- `SpanishGrammar::new`: the base vocabulary loaded by
`load_base_vocabulary`, in insertion order. -/
def SpanishGrammar.new : SpanishGrammar where
  verbs := [verbGustar, verbSer, verbEstar, verbVisitar, verbCorrer, verbIr]
  nouns := []
  adjectives := []
  prepositions :=
    [str "a", str "ante", str "bajo", str "con", str "contra", str "de",
      str "desde", str "en", str "entre", str "hacia", str "hasta",
      str "para", str "por", str "según", str "sin", str "sobre", str "tras"]
  articles :=
    [(str "el", ⟨true, .Masculine, .Singular⟩),
      (str "la", ⟨true, .Feminine, .Singular⟩),
      (str "los", ⟨true, .Masculine, .Plural⟩),
      (str "las", ⟨true, .Feminine, .Plural⟩),
      (str "un", ⟨false, .Masculine, .Singular⟩),
      (str "una", ⟨false, .Feminine, .Singular⟩),
      (str "unos", ⟨false, .Masculine, .Plural⟩),
      (str "unas", ⟨false, .Feminine, .Plural⟩)]
  pronouns :=
    [(str "yo", ⟨.First, .Singular, .Subject⟩),
      (str "tú", ⟨.Second, .Singular, .Subject⟩),
      (str "él", ⟨.Third, .Singular, .Subject⟩),
      (str "ella", ⟨.Third, .Singular, .Subject⟩),
      (str "nosotros", ⟨.First, .Plural, .Subject⟩),
      (str "me", ⟨.First, .Singular, .DirectObj⟩),
      (str "te", ⟨.Second, .Singular, .DirectObj⟩),
      (str "le", ⟨.Third, .Singular, .IndirectObj⟩),
      (str "se", ⟨.Third, .Singular, .Reflexive⟩)]
  conjunctions :=
    [str "y", str "e", str "o", str "u", str "pero", str "sino", str "que",
      str "porque", str "aunque", str "si", str "cuando", str "donde",
      str "como"]
  adverbs :=
    [str "muy", str "bien", str "mal", str "mucho", str "poco",
      str "siempre", str "nunca", str "ya", str "todavía", str "aquí",
      str "allí", str "ahora", str "después", str "antes", str "también",
      str "tampoco", str "sí", str "no"]

/-- `SpanishGrammar::add_noun` (key is lowercased). -/
def SpanishGrammar.add_noun (g : SpanishGrammar) (word : Str)
    (info : NounInfo) : SpanishGrammar :=
  { g with nouns := ainsert g.nouns (strLower word) info }

/-- `SpanishGrammar::add_adjective` (set insert of the lowercased word). -/
def SpanishGrammar.add_adjective (g : SpanishGrammar) (word : Str) :
    SpanishGrammar :=
  { g with adjectives :=
      if g.adjectives.contains (strLower word) then g.adjectives
      else g.adjectives ++ [strLower word] }

/-- `SpanishGrammar::classify_token`: the lexicons are consulted in the order
articles, prepositions, pronouns, conjunctions, adverbs, verb conjugations,
adjectives, nouns; the first hit wins and everything else is `Unknown`. -/
def SpanishGrammar.classify_token (g : SpanishGrammar) (token : Str) :
    TokenType :=
  let lower := strLower token
  match alookup g.articles lower with
  | some info => .Article info
  | none =>
    if g.prepositions.contains lower then .Preposition
    else
      match alookup g.pronouns lower with
      | some info => .Pronoun info
      | none =>
        if g.conjunctions.contains lower then .Conjunction
        else if g.adverbs.contains lower then .Adverb
        else
          match g.verbs.find? fun p => (alookup p.2.conjugations lower).isSome
          with
          | some p => .Verb p.2
          | none =>
            if g.adjectives.contains lower then .Adjective
            else
              match alookup g.nouns lower with
              | some info => .Noun info
              | none => .Unknown

/-- Is the token a verb? -/
def isVerbTT : TokenType → Bool
  | .Verb _ => true
  | _ => false

/-- Is the token a noun? -/
def isNounTT : TokenType → Bool
  | .Noun _ => true
  | _ => false

/-- Is the token a pronoun? -/
def isPronounTT : TokenType → Bool
  | .Pronoun _ => true
  | _ => false

/-- `determine_sentence_type`: the priority rules on the relative order of
subject-like and object-like tokens around the first verb. -/
def SpanishGrammar.determine_sentence_type (_ : SpanishGrammar)
    (types : List TokenType) (verb_pos : List Nat) : SentenceType :=
  match verb_pos.head? with
  | none => .Unknown
  | some first_verb =>
    let has_subject_before :=
      (types.take first_verb).any fun t => isNounTT t || isPronounTT t
    let has_object_after := ((types.drop first_verb).drop 1).any isNounTT
    let has_dative_pronoun_before :=
      (types.take first_verb).any fun t =>
        match t with
        | .Pronoun info =>
          decide (info.pcase = .IndirectObj) || decide (info.pcase = .DirectObj)
        | _ => false
    if has_dative_pronoun_before && !has_subject_before then .VSO
    else if first_verb = 0 then
      if has_object_after then .VSO else .SV
    else if has_subject_before && has_object_after then .SVO
    else if has_subject_before then .SV
    else if has_object_after then .OVS
    else .Impersonal

/-- `calculate_validity`: `0.5` base, `+0.2` verb, `+0.15` subject, `+0.1`
recognizable sentence type, capped at `1.0`. -/
def SpanishGrammar.calculate_validity (_ : SpanishGrammar)
    (components : List GrammaticalComponent) (sentence_type : SentenceType) :
    ℚ :=
  let score : ℚ := q 1 2
  let score :=
    if components.any fun c => decide (c.role = GrammaticalRole.Verb) then
      score + q 1 5
    else score
  let score :=
    if components.any fun c => decide (c.role = GrammaticalRole.Subject) then
      score + q 3 20
    else score
  let score := if sentence_type ≠ .Unknown then score + q 1 10 else score
  min score 1

/-- The expectation recorded after a preposition. -/
def prepositionExpectation : ExpectedWord :=
  ⟨[.DirectObject], [str "lugar", str "cosa", str "persona"], true⟩

/-- The expectation recorded after an article. -/
def articleExpectation : ExpectedWord :=
  ⟨[.Subject, .DirectObject], [str "sustantivo", str "adjetivo"], true⟩

/-- Pointwise update of the expectations map. -/
def updateE (f : Nat → Option ExpectedWord) (n : Nat) (v : ExpectedWord) :
    Nat → Option ExpectedWord :=
  fun k => if k = n then some v else f k

/-- `infer_expectations`: a nominal phrase is expected right after a
preposition, a noun or adjective right after an article. -/
def SpanishGrammar.infer_expectations (_ : SpanishGrammar)
    (types : List TokenType) : Nat → Option ExpectedWord :=
  types.enum.foldl
    (fun exp p =>
      match p.2 with
      | .Preposition =>
        if p.1 + 1 < types.length then
          updateE exp (p.1 + 1) prepositionExpectation
        else exp
      | .Article _ =>
        if p.1 + 1 < types.length then
          updateE exp (p.1 + 1) articleExpectation
        else exp
      | _ => exp)
    (fun _ => none)

/-- The role assigned to one classified token when building components. -/
def roleOf (verb_positions : List Nat) (i : Nat) :
    TokenType → Option GrammaticalRole
  | .Verb _ => some .Verb
  | .Noun _ =>
    if (verb_positions.head?.map fun v => decide (i < v)).getD false then
      some .Subject
    else some .DirectObject
  | .Article _ => some .Article
  | .Adjective => some .Adjective
  | .Preposition => some .Preposition
  | .Pronoun _ => some .Subject
  | .Adverb => some .Adverb
  | .Conjunction => some .Conjunction
  | .Unknown => none

/-- `SpanishGrammar::analyze`: classify, locate verbs, derive the sentence
type, build components, compute validity and positional expectations. -/
def SpanishGrammar.analyze (g : SpanishGrammar) (tokens : List Str) :
    GrammarAnalysis :=
  let token_types := tokens.map g.classify_token
  let verb_positions :=
    (token_types.enum.filter fun p => isVerbTT p.2).map Prod.fst
  let sentence_type :=
    if verb_positions.isEmpty then SentenceType.Unknown
    else g.determine_sentence_type token_types verb_positions
  let components :=
    token_types.enum.filterMap fun p =>
      (roleOf verb_positions p.1 p.2).map fun r =>
        ({ role := r, tokens := [p.1], head := some p.1 } :
          GrammaticalComponent)
  let validity_score := g.calculate_validity components sentence_type
  let expected_at := g.infer_expectations token_types
  ⟨⟨sentence_type, components, none⟩, validity_score, [], expected_at⟩

/-- `SpanishGrammar::is_valid_at_position`: substitute the candidate,
re-analyze, and add `+0.1` when the candidate's class matches the slot's
recorded expectation. -/
def SpanishGrammar.is_valid_at_position (g : SpanishGrammar) (word : Str)
    (position : Nat) (sentence : List Str) : ℚ :=
  let test_sentence :=
    if position < sentence.length then sentence.set position word
    else sentence ++ [word]
  let analysis := g.analyze test_sentence
  match analysis.expected_at position with
  | some expected =>
    let word_type := g.classify_token word
    let matches_role : Bool :=
      match word_type with
      | .Noun _ =>
        expected.roles.any fun r =>
          decide (r = .Subject) || decide (r = .DirectObject)
      | .Adjective => expected.roles.contains .Adjective
      | _ => false
    if matches_role then analysis.validity_score + q 1 10
    else analysis.validity_score
  | none => analysis.validity_score

/-- The bare category of a classification, forgetting the payload. -/
inductive TokenCat where
  | verb
  | noun
  | article
  | adjective
  | preposition
  | pronoun
  | adverb
  | conjunction
  | unknown
  deriving DecidableEq

/-- Projects a `TokenType` to its bare category. -/
def tokCat : TokenType → TokenCat
  | .Verb _ => .verb
  | .Noun _ => .noun
  | .Article _ => .article
  | .Adjective => .adjective
  | .Preposition => .preposition
  | .Pronoun _ => .pronoun
  | .Adverb => .adverb
  | .Conjunction => .conjunction
  | .Unknown => .unknown

/-- The noun entry used by the C4 counterexample. -/
def nounInfoMar : NounInfo := ⟨.Masculine, .Singular, .Thing, true, true⟩

/-- A grammar in which `"mar"` is both an adjective and a noun. -/
def gMar : SpanishGrammar :=
  (SpanishGrammar.new.add_adjective (str "mar")).add_noun (str "mar")
    nounInfoMar

/-- C4 (counterexample to the claim as stated): in a grammar where `"mar"`
is present in both the noun and the adjective lexicon, `classify_token`
returns `Adjective`, whereas the claimed priority order (Verb, **Noun**,
Article, Preposition, Pronoun, Conjunction, Adverb, **Adjective**, Unknown)
would make `Noun` win.  The code consults the adjective set before the noun
map. -/
theorem C4_counterexample_priority_order :
    ((alookup gMar.nouns (str "mar")).isSome = true) ∧
    (gMar.adjectives.contains (str "mar") = true) ∧
    (gMar.classify_token (str "mar") = .Adjective) :=
  ⟨rfl, rfl, rfl⟩

/-- C4 (amended): `classify_token` maps every token to exactly one of the
nine categories, testing the lexicons in the order Article, Preposition,
Pronoun, Conjunction, Adverb, Verb (conjugation lookup across all known
verbs), Adjective, Noun, and falling back to Unknown; for a word present in
several lexicons the category earliest in *that* order is returned. -/
theorem C4_classify_token_priority :
    ∀ (g : SpanishGrammar) (w : Str),
      tokCat (g.classify_token w)
        = (if (alookup g.articles (strLower w)).isSome then TokenCat.article
          else if g.prepositions.contains (strLower w) then .preposition
          else if (alookup g.pronouns (strLower w)).isSome then .pronoun
          else if g.conjunctions.contains (strLower w) then .conjunction
          else if g.adverbs.contains (strLower w) then .adverb
          else if g.verbs.any
            (fun p => (alookup p.2.conjugations (strLower w)).isSome)
            then .verb
          else if g.adjectives.contains (strLower w) then .adjective
          else if (alookup g.nouns (strLower w)).isSome then .noun
          else .unknown) := by
  intro g w
  cases ha : alookup g.articles (strLower w) with
  | some info => simp only [SpanishGrammar.classify_token, tokCat, ha,
      Option.isSome_some, if_true]
  | none =>
    by_cases hp : g.prepositions.contains (strLower w)
    · simp only [SpanishGrammar.classify_token, tokCat, ha, hp,
        Option.isSome_none, Bool.false_eq_true, if_false, if_true]
    · rw [Bool.not_eq_true] at hp
      cases hpr : alookup g.pronouns (strLower w) with
      | some info => simp only [SpanishGrammar.classify_token, tokCat, ha,
          hp, hpr, Option.isSome_none, Option.isSome_some,
          Bool.false_eq_true, if_false, if_true]
      | none =>
        by_cases hc : g.conjunctions.contains (strLower w)
        · simp only [SpanishGrammar.classify_token, tokCat, ha, hp, hpr, hc,
            Option.isSome_none, Bool.false_eq_true, if_false, if_true]
        · rw [Bool.not_eq_true] at hc
          by_cases hd : g.adverbs.contains (strLower w)
          · simp only [SpanishGrammar.classify_token, tokCat, ha, hp, hpr,
              hc, hd, Option.isSome_none, Bool.false_eq_true, if_false,
              if_true]
          · rw [Bool.not_eq_true] at hd
            cases hv : g.verbs.find?
              (fun p => (alookup p.2.conjugations (strLower w)).isSome) with
            | some p =>
              have hany : g.verbs.any
                  (fun p => (alookup p.2.conjugations (strLower w)).isSome)
                  = true := by
                have hmem := List.mem_of_find?_eq_some hv
                have hpred := List.find?_some hv
                rw [List.any_eq_true]
                exact ⟨p, hmem, hpred⟩
              simp only [SpanishGrammar.classify_token, tokCat, ha, hp, hpr,
                hc, hd, hv, hany, Option.isSome_none, Bool.false_eq_true,
                if_false, if_true]
            | none =>
              have hany : g.verbs.any
                  (fun p => (alookup p.2.conjugations (strLower w)).isSome)
                  = false := by
                rw [List.any_eq_false]
                intro x hx
                have := List.find?_eq_none.mp hv x hx
                simpa using this
              by_cases hj : g.adjectives.contains (strLower w)
              · simp only [SpanishGrammar.classify_token, tokCat, ha, hp,
                  hpr, hc, hd, hv, hany, hj, Option.isSome_none,
                  Bool.false_eq_true, if_false, if_true]
              · rw [Bool.not_eq_true] at hj
                cases hn : alookup g.nouns (strLower w) with
                | some info => simp only [SpanishGrammar.classify_token,
                    tokCat, ha, hp, hpr, hc, hd, hv, hany, hj, hn,
                    Option.isSome_none, Option.isSome_some,
                    Bool.false_eq_true, if_false, if_true]
                | none => simp only [SpanishGrammar.classify_token, tokCat,
                    ha, hp, hpr, hc, hd, hv, hany, hj, hn,
                    Option.isSome_none, Bool.false_eq_true, if_false]

/-! ## The semantic database (`src/semantic/mod.rs`)

`words` and `themes` are `HashMap`s, modelled as association lists in
insertion order; the theme iteration order (which in Rust is the unspecified
`HashMap` order and only matters for tie-breaking in `infer_theme`) is the
insertion order of `load_themes`/`load_compatibility_rules`. -/

/-- `PlaceType`. -/
inductive PlaceType where
  | City
  | Country
  | Building
  | Monument
  | NaturalFeature
  | Region
  | Generic
  deriving DecidableEq

/-- `ObjectType`. -/
inductive ObjectType where
  | Food
  | Plant
  | Animal
  | Artifact
  | Natural
  | Abstract
  deriving DecidableEq

/-- `Valence`. -/
inductive Valence where
  | Positive
  | Negative
  | Neutral
  deriving DecidableEq

/-- `ActionType`. -/
inductive ActionType where
  | Physical
  | Mental
  | Social
  | Movement
  deriving DecidableEq

/-- `TimeType`. -/
inductive TimeType where
  | Duration
  | Point
  | Frequency
  | Season
  deriving DecidableEq

/-- `SemanticCategory`. -/
inductive SemanticCategory where
  | Place (place_type : PlaceType) (region : Option Str) (country : Option Str)
  | Person (role : Option Str)
  | Object (object_type : ObjectType)
  | Emotion (valence : Valence)
  | Concept (domain : Option Str)
  | Action (action_type : ActionType)
  | Time (time_type : TimeType)
  | Quantity
  | Quality
  | Unknown
  deriving DecidableEq

/-- `SemanticEntry`. -/
structure SemanticEntry where
  word : Str
  category : SemanticCategory
  subcategory : Option Str
  tags : List Str
  related : List Str
  deriving DecidableEq

/-- `CategoryMatcher`. -/
inductive CategoryMatcher where
  | PlaceInRegion (region : Str)
  | AnyPlace
  | ObjectOfType (t : ObjectType)
  | EmotionWithValence (v : Valence)
  | ConceptInDomain (d : Str)
  | Any
  deriving DecidableEq

/-- `ThemeInfo`. -/
structure ThemeInfo where
  name : Str
  description : Str
  compatible_categories : List CategoryMatcher
  keywords : List Str
  deriving DecidableEq

/-- `RelationType`. -/
inductive RelationType where
  | Hyponym
  | Hypernym
  | Synonym
  | Antonym
  | Meronym
  | Holonym
  | Related
  deriving DecidableEq

/-- `SemanticRelation` (never populated by the embedded code paths). -/
structure SemanticRelation where
  word1 : Str
  word2 : Str
  relation_type : RelationType
  strength : ℚ
  deriving DecidableEq

/-- `CompatibilityRule`. -/
structure CompatibilityRule where
  theme : Str
  matcher : CategoryMatcher
  score : ℚ
  deriving DecidableEq

/-- `SemanticDB`. -/
structure SemanticDB where
  words : List (Str × SemanticEntry)
  themes : List (Str × ThemeInfo)
  relations : List SemanticRelation
  compatibility_rules : List CompatibilityRule

/-- The word entries of `load_base_vocabulary`, in insertion order. -/
def semanticBaseWords : List (Str × SemanticEntry) :=
  [(str "roma",
    ⟨str "roma",
      .Place .City (some (str "italia")) (some (str "italia")),
      some (str "capital_historica"),
      [str "arquitectura", str "historia", str "imperio_romano"],
      [str "coliseo", str "vaticano", str "italia"]⟩),
  (str "coliseo",
    ⟨str "coliseo",
      .Place .Monument (some (str "italia")) (some (str "italia")),
      some (str "anfiteatro"),
      [str "arquitectura", str "romano", str "monumento"],
      [str "roma", str "gladiador"]⟩),
  (str "paris",
    ⟨str "paris",
      .Place .City (some (str "francia")) (some (str "francia")),
      some (str "capital"),
      [str "romantico", str "arte"],
      [str "torre_eiffel", str "louvre"]⟩),
  (str "madrid",
    ⟨str "madrid",
      .Place .City (some (str "espana")) (some (str "espana")),
      some (str "capital"),
      [str "espana"],
      [str "prado"]⟩),
  (str "amor",
    ⟨str "amor", .Emotion .Positive, some (str "afecto"),
      [str "sentimiento", str "romantico"],
      [str "carino", str "querer"]⟩),
  (str "odio",
    ⟨str "odio", .Emotion .Negative, some (str "aversion"),
      [str "sentimiento", str "negativo"],
      [str "rencor"]⟩),
  (str "paz",
    ⟨str "paz", .Concept (some (str "estado_social")), none,
      [str "positivo", str "armonia"],
      [str "tranquilidad"]⟩),
  (str "ramo",
    ⟨str "ramo", .Object .Plant, some (str "flores"),
      [str "naturaleza", str "regalo"],
      [str "flor", str "rosa"]⟩),
  (str "mora",
    ⟨str "mora", .Object .Food, some (str "fruta"),
      [str "comida", str "naturaleza"],
      [str "fruta", str "zarzamora"]⟩),
  (str "casa",
    ⟨str "casa", .Place .Building none none, some (str "vivienda"),
      [str "edificio", str "hogar"],
      [str "hogar", str "edificio"]⟩),
  (str "rosita",
    ⟨str "rosita", .Person none, some (str "nombre_propio"),
      [str "femenino"], []⟩),
  (str "azul",
    ⟨str "azul", .Quality, some (str "color"),
      [str "color", str "frio"],
      [str "celeste", str "marino"]⟩),
  (str "romano",
    ⟨str "romano", .Quality, some (str "gentilicio"),
      [str "roma", str "italia", str "antiguo"],
      [str "roma", str "imperio"]⟩)]

/-- The themes of `load_themes` plus the `"viajes"` theme inserted during
`load_compatibility_rules`, in insertion order. -/
def semanticBaseThemes : List (Str × ThemeInfo) :=
  [(str "arquitectura_romana",
    ⟨str "arquitectura_romana",
      str "Arquitectura y monumentos del Imperio Romano",
      [.PlaceInRegion (str "italia"), .ConceptInDomain (str "historia")],
      [str "coliseo", str "romano", str "roma", str "imperio",
        str "gladiador", str "anfiteatro"]⟩),
  (str "romance",
    ⟨str "romance", str "Temas románticos y emocionales",
      [.EmotionWithValence .Positive, .ConceptInDomain (str "sentimiento")],
      [str "amor", str "querer", str "corazon", str "romantico"]⟩),
  (str "naturaleza",
    ⟨str "naturaleza", str "Flora, fauna y elementos naturales",
      [.ObjectOfType .Plant, .ObjectOfType .Animal, .ObjectOfType .Natural],
      [str "flor", str "arbol", str "rio", str "montana"]⟩),
  (str "hogar",
    ⟨str "hogar", str "Casa, familia, vida doméstica",
      [.AnyPlace, .Any],
      [str "casa", str "familia", str "hogar"]⟩),
  (str "viajes",
    ⟨str "viajes", str "Viajes y geografía",
      [.AnyPlace],
      [str "viajé", str "visité", str "fui", str "desde", str "hacia",
        str "madrid", str "paris", str "roma"]⟩)]

/-- The compatibility rules of `load_compatibility_rules`, in push order. -/
def semanticBaseRules : List CompatibilityRule :=
  [⟨str "arquitectura_romana", .PlaceInRegion (str "italia"), q 49 50⟩,
  ⟨str "arquitectura_romana", .EmotionWithValence .Positive, q 1 20⟩,
  ⟨str "arquitectura_romana", .EmotionWithValence .Negative, q 1 20⟩,
  ⟨str "arquitectura_romana", .ObjectOfType .Plant, q 3 20⟩,
  ⟨str "arquitectura_romana", .ObjectOfType .Food, q 1 10⟩,
  ⟨str "romance", .EmotionWithValence .Positive, q 49 50⟩,
  ⟨str "romance", .PlaceInRegion (str "italia"), q 3 10⟩,
  ⟨str "romance", .PlaceInRegion (str "francia"), q 3 5⟩,
  ⟨str "naturaleza", .ObjectOfType .Plant, q 9 10⟩,
  ⟨str "naturaleza", .ObjectOfType .Food, q 7 10⟩,
  ⟨str "viajes", .AnyPlace, q 19 20⟩,
  ⟨str "viajes", .EmotionWithValence .Positive, q 1 5⟩]

/-- `SemanticDB::new`. -/
def SemanticDB.new : SemanticDB :=
  ⟨semanticBaseWords, semanticBaseThemes, [], semanticBaseRules⟩

/-- `SemanticDB::lookup` (key is lowercased). -/
def SemanticDB.lookup (db : SemanticDB) (word : Str) : Option SemanticEntry :=
  alookup db.words (strLower word)

/-- `category_matches`. -/
def category_matches : SemanticCategory → CategoryMatcher → Bool
  | _, .Any => true
  | .Place _ _ _, .AnyPlace => true
  | .Place _ (some r) _, .PlaceInRegion expected => decide (r = expected)
  | .Object t, .ObjectOfType expected => decide (t = expected)
  | .Emotion v, .EmotionWithValence expected => decide (v = expected)
  | .Concept (some d), .ConceptInDomain expected => decide (d = expected)
  | _, _ => false

/-- One `*theme_scores.entry(name).or_insert(0.0) += delta` step. -/
def bumpQ : List (Str × ℚ) → Str → ℚ → List (Str × ℚ)
  | [], k, d => [(k, d)]
  | (k', v) :: rest, k, d =>
    if k' = k then (k', v + d) :: rest else (k', v) :: bumpQ rest k d

/-- `SemanticDB::infer_theme`: `+1.0` per theme whose keyword set contains a
context word, `+0.5` per theme keyword appearing in a known context word's
tags; returns the maximum-score theme (`max_by` keeps the last maximum, so
later ties win). -/
def SemanticDB.infer_theme (db : SemanticDB) (context_words : List Str) :
    Option (Str × ℚ) :=
  let theme_scores := context_words.foldl
    (fun sc word =>
      let lower := strLower word
      let sc := db.themes.foldl
        (fun sc p =>
          if p.2.keywords.contains lower then bumpQ sc p.1 1 else sc) sc
      match alookup db.words lower with
      | some entry =>
        db.themes.foldl
          (fun sc p =>
            p.2.keywords.foldl
              (fun sc kw =>
                if entry.tags.contains kw then bumpQ sc p.1 (q 1 2) else sc)
              sc)
          sc
      | none => sc)
    []
  theme_scores.foldl
    (fun best p =>
      match best with
      | none => some p
      | some b => if b.2 ≤ p.2 then some p else best)
    none

/-- `SemanticDB::compatibility_score`: unknown word or theme is neutral
(`0.5`); else the first matching explicit rule's score, else `0.7` on a
generic compatible category, else `0.2`. -/
def SemanticDB.compatibility_score (db : SemanticDB) (word theme : Str) : ℚ :=
  match db.lookup word with
  | none => q 1 2
  | some entry =>
    match alookup db.themes theme with
    | none => q 1 2
    | some theme_info =>
      match db.compatibility_rules.find? fun rule =>
        decide (rule.theme = theme) && category_matches entry.category
          rule.matcher with
      | some rule => rule.score
      | none =>
        if theme_info.compatible_categories.any fun m =>
          category_matches entry.category m then q 7 10
        else q 1 5

/-! ## The disambiguation orchestrator (`src/disambiguator/mod.rs`,
result types from `src/lib.rs`)

Rust operations that can panic are modelled in `Option` with `none` for the
panic: the `chars().next().unwrap()` of `is_punctuation`, the
`scored_candidates[0]` indexing of `disambiguate_word`, and the
`corrected_tokens[idx] = …` indexed assignment of `process`.  The optional
external `SpanishDictionary` (`dictionary` field) is an excluded collaborator
consulted only by `word_frequency` and the constructors, not by `process`,
and is omitted.  The `format!`-built human-readable `reason` text of a chosen
correction is abstracted to a fixed prefix plus the chosen word (no claim
concerns its exact text); the `"No se encontraron candidatos"` reason is
modelled verbatim. -/

/-- `Config` with the fusion weights and acceptance floor. -/
structure Config where
  alpha : ℚ
  beta : ℚ
  gamma : ℚ
  min_confidence : ℚ
  max_candidates : Nat
  deriving DecidableEq

/-- `Config::default`: α=0.30, β=0.30, γ=0.40, floor 0.60, 10 candidates. -/
def Config.default : Config := ⟨q 3 10, q 3 10, q 2 5, q 3 5, 10⟩

/-- `CorrectionExplanation`. -/
structure CorrectionExplanation where
  char_score : ℚ
  grammar_score : ℚ
  context_score : ℚ
  candidates : List (Str × ℚ)
  reason : Str
  deriving DecidableEq

/-- `Correction`. -/
structure Correction where
  position : Nat
  original : Str
  corrected : Str
  confidence : ℚ
  explanation : CorrectionExplanation
  deriving DecidableEq

/-- `ProcessedSentence`. -/
structure ProcessedSentence where
  original : Str
  corrected : Str
  confidence : ℚ
  corrections : List Correction
  deriving DecidableEq

/-- `SemanticDisambiguator`. -/
structure SemanticDisambiguator where
  config : Config
  char_matcher : CharMatcher
  grammar : SpanishGrammar
  semantic_db : SemanticDB
  shared_context : SharedContext

/-- A character the tokenizer keeps inside a word: alphanumerics,
apostrophe, hyphen and the Spanish letters listed in the source. -/
def isTokenChar (c : Char) : Bool :=
  isAlphanumericCh c || c = '\'' || c = '-' ||
    c ∈ ['á', 'é', 'í', 'ó', 'ú', 'ñ', 'ü', 'Á', 'É', 'Í', 'Ó', 'Ú', 'Ñ']

/-- The tokenizer loop of `SemanticDisambiguator::tokenize`: whitespace
flushes the current word, token characters extend it, anything else flushes
and becomes a single-character token. -/
def tokenizeGo : List Char → Str → List Str
  | [], current => if current.isEmpty then [] else [current]
  | c :: rest, current =>
    if c.isWhitespace then
      if current.isEmpty then tokenizeGo rest []
      else current :: tokenizeGo rest []
    else if isTokenChar c then tokenizeGo rest (current ++ [c])
    else
      (if current.isEmpty then [] else [current]) ++ [c] :: tokenizeGo rest []

/-- `SemanticDisambiguator::tokenize`. -/
def SemanticDisambiguator.tokenize (_ : SemanticDisambiguator)
    (sentence : Str) : List Str :=
  tokenizeGo sentence []

/-- `SemanticDisambiguator::is_punctuation`: byte length 1 and not
alphanumeric.  `none` models the (unreachable) `unwrap` panic on an empty
token of byte length 1. -/
def SemanticDisambiguator.is_punctuation (_ : SemanticDisambiguator)
    (token : Str) : Option Bool :=
  if utf8Len token = 1 then
    match token with
    | c :: _ => some (!(isAlphanumericCh c))
    | [] => none
  else some false

/-- The anomaly scan of `process` step 2: tokens that are neither valid
dictionary words nor punctuation, with their indices. -/
def collectAnomalies (d : SemanticDisambiguator) :
    Nat → List Str → Option (List (Nat × Str))
  | _, [] => some []
  | i, t :: ts =>
    match d.is_punctuation t with
    | none => none
    | some p =>
      match collectAnomalies d (i + 1) ts with
      | none => none
      | some rest =>
        some (if !(d.char_matcher.is_valid t) && !p then (i, t) :: rest
          else rest)

/-- One row of the `scored_candidates` vector of `disambiguate_word`. -/
structure ScoredCandidate where
  word : Str
  total : ℚ
  char_score : ℚ
  grammar_score : ℚ
  context_score : ℚ
  deriving DecidableEq

/-- `SemanticDisambiguator::disambiguate_word`: char candidates, fused
`α·char + β·grammar + γ·context` scores, best-first selection with the top
five alternatives in the explanation; the no-candidate case returns the word
itself with confidence `0.0` and the `"No se encontraron candidatos"`
reason. -/
def SemanticDisambiguator.disambiguate_word (d : SemanticDisambiguator)
    (word : Str) (position : Nat) (sentence : List Str) (theme : Option Str) :
    Option (Str × ℚ × CorrectionExplanation) :=
  let candidates := d.char_matcher.find_candidates word
  if candidates.isEmpty then
    some (word, 0, ⟨0, 0, 0, [], str "No se encontraron candidatos"⟩)
  else
    let scored_candidates := candidates.map fun c =>
      let char_score := c.score
      let grammar_score :=
        d.grammar.is_valid_at_position c.word position sentence
      let context_score :=
        match theme with
        | some t => d.semantic_db.compatibility_score c.word t
        | none => q 1 2
      let total := d.config.alpha * char_score
        + d.config.beta * grammar_score + d.config.gamma * context_score
      (⟨c.word, total, char_score, grammar_score, context_score⟩ :
        ScoredCandidate)
    let sorted := sortByDesc (fun sc => sc.total) scored_candidates
    match sorted.head? with
    | none => none
    | some best =>
      some (best.word, best.total,
        ⟨best.char_score, best.grammar_score, best.context_score,
          (sorted.take 5).map fun sc => (sc.word, sc.total),
          str "Elegido " ++ best.word⟩)

/-- The `corrected_tokens[idx] = correction` indexed assignment; `none`
models the out-of-bounds panic. -/
def setTok (l : List Str) (i : Nat) (v : Str) : Option (List Str) :=
  if i < l.length then some (l.set i v) else none

/-- The per-anomaly correction loop of `process` step 6, threading the
corrected token list and the accepted corrections. -/
def foldCorrections (d : SemanticDisambiguator) (tokens : List Str)
    (theme : Option Str) :
    List (Nat × Str) → List Str → List Correction →
      Option (List Str × List Correction)
  | [], ctoks, corrs => some (ctoks, corrs)
  | (idx, anomaly) :: rest, ctoks, corrs =>
    match d.disambiguate_word anomaly idx tokens theme with
    | none => none
    | some (correction, conf, explanation) =>
      if d.config.min_confidence ≤ conf then
        match setTok ctoks idx correction with
        | none => none
        | some ctoks2 =>
          foldCorrections d tokens theme rest ctoks2
            (corrs ++ [⟨idx, anomaly, correction, conf, explanation⟩])
      else foldCorrections d tokens theme rest ctoks corrs

/-- `corrected_tokens.join(" ")`. -/
def joinSpace : List Str → Str
  | [] => []
  | [t] => t
  | t :: ts => t ++ ' ' :: joinSpace ts

/-- The theme-storing step of `process` step 5: when a theme was inferred it
is written to the shared context under `current_theme` with source `Semantic`
and confidence `0.8` (the error result of that `set` is discarded by the
`let _ = …`). -/
def themeEngine (d : SemanticDisambiguator) (theme : Option (Str × ℚ)) :
    SemanticDisambiguator :=
  match theme with
  | some (theme_name, _) =>
    { d with shared_context :=
        (d.shared_context.set (str "current_theme") (.Atom theme_name)
          .Semantic (q 4 5)).1 }
  | none => d

/-- `SemanticDisambiguator::process`: tokenize, collect anomalies, return the
input unchanged with confidence `1.0` when there are none; otherwise infer a
theme from the in-dictionary tokens (storing it in the shared context under
`current_theme`), disambiguate each anomaly, accept corrections meeting
`min_confidence`, and report the mean accepted confidence (or `1.0` when
nothing was accepted). -/
def SemanticDisambiguator.process (d : SemanticDisambiguator)
    (sentence : Str) : Option (ProcessedSentence × SemanticDisambiguator) :=
  let tokens := d.tokenize sentence
  match collectAnomalies d 0 tokens with
  | none => none
  | some anomalies =>
    if anomalies.isEmpty then some (⟨sentence, sentence, 1, []⟩, d)
    else
      let context_words := tokens.filter fun t => d.char_matcher.is_valid t
      let theme := d.semantic_db.infer_theme context_words
      let d1 := themeEngine d theme
      match foldCorrections d1 tokens (theme.map Prod.fst) anomalies tokens []
      with
      | none => none
      | some (corrected_tokens, corrections) =>
        let global_confidence :=
          if corrections.isEmpty then 1
          else ((corrections.map fun c => c.confidence).sum)
            / (corrections.length : ℚ)
        some (⟨sentence, joinSpace corrected_tokens, global_confidence,
          corrections⟩, d1)

/-- The `semantic_words` list of `load_default_dictionary`. -/
def defaultSemanticWords : List Str :=
  [str "roma", str "coliseo", str "paris", str "madrid", str "amor",
    str "odio", str "paz", str "ramo", str "mora", str "casa", str "rosita",
    str "azul", str "romano"]

/-- The `grammar_words` list of `load_default_dictionary`. -/
def defaultGrammarWords : List Str :=
  [str "el", str "la", str "los", str "las", str "un", str "una",
    str "unos", str "unas", str "yo", str "tú", str "él", str "ella",
    str "nosotros", str "me", str "te", str "le", str "se", str "a",
    str "ante", str "bajo", str "con", str "contra", str "de", str "desde",
    str "en", str "entre", str "hacia", str "hasta", str "para", str "por",
    str "según", str "sin", str "sobre", str "tras", str "y", str "e",
    str "o", str "u", str "pero", str "sino", str "que", str "porque",
    str "aunque", str "si", str "cuando", str "donde", str "como",
    str "muy", str "bien", str "mal", str "mucho", str "poco",
    str "siempre", str "nunca", str "ya", str "todavía", str "aquí",
    str "allí", str "ahora", str "después", str "antes", str "también",
    str "tampoco", str "sí", str "no", str "gusta", str "gustan",
    str "gustó", str "soy", str "eres", str "es", str "somos", str "son",
    str "estoy", str "estás", str "está", str "estamos", str "están",
    str "visito", str "visitas", str "visita", str "visité", str "visitó",
    str "corro", str "corres", str "corre", str "corremos", str "corren",
    str "voy", str "vas", str "va", str "vamos", str "van", str "fui",
    str "fue"]

/-- The char matcher produced by `load_default_dictionary`. -/
def defaultCharMatcher : CharMatcher :=
  (CharMatcher.new.load_dictionary defaultSemanticWords).load_dictionary
    defaultGrammarWords

/-- The grammar after `load_default_dictionary` added its nouns and
adjectives to the base vocabulary. -/
def defaultGrammarD : SpanishGrammar :=
  ((((((((SpanishGrammar.new.add_noun (str "roma")
    ⟨.Feminine, .Singular, .Place, true, true⟩).add_noun (str "coliseo")
    ⟨.Masculine, .Singular, .Place, false, true⟩).add_noun (str "casa")
    ⟨.Feminine, .Singular, .Thing, true, true⟩).add_noun (str "amor")
    ⟨.Masculine, .Singular, .Concept, true, true⟩).add_adjective
    (str "azul")).add_adjective (str "romano")).add_adjective
    (str "grande")).add_adjective (str "pequeño"))

/-- `SemanticDisambiguator::new`: default config, the default dictionary in
the char matcher, the extended grammar, the base semantic DB and a fresh
shared context. -/
def SemanticDisambiguator.new : SemanticDisambiguator :=
  ⟨Config.default, defaultCharMatcher, defaultGrammarD, SemanticDB.new,
    SharedContext.new⟩

/-! ### Totality and confidence of `process` (claims C3, C7, C8) -/

theorem is_punctuation_isSome (d : SemanticDisambiguator) (t : Str) :
    (d.is_punctuation t).isSome := by
  unfold SemanticDisambiguator.is_punctuation
  by_cases h : utf8Len t = 1
  · rw [if_pos h]
    cases t with
    | nil => simp [utf8Len] at h
    | cons c cs => simp
  · rw [if_neg h]
    simp

theorem collectAnomalies_isSome (d : SemanticDisambiguator) :
    ∀ (i : Nat) (ts : List Str), (collectAnomalies d i ts).isSome := by
  intro i ts
  induction ts generalizing i with
  | nil => simp [collectAnomalies]
  | cons t ts ih =>
    have h1 := is_punctuation_isSome d t
    cases hp : d.is_punctuation t with
    | none => rw [hp] at h1; simp at h1
    | some p =>
      have h2 := ih (i + 1)
      cases hr : collectAnomalies d (i + 1) ts with
      | none => rw [hr] at h2; simp at h2
      | some rest =>
        unfold collectAnomalies
        rw [hp, hr]
        simp

theorem collectAnomalies_bounds (d : SemanticDisambiguator) :
    ∀ (ts : List Str) (i : Nat) (l : List (Nat × Str)),
      collectAnomalies d i ts = some l → ∀ p ∈ l, p.1 < i + ts.length := by
  intro ts
  induction ts with
  | nil =>
    intro i l h p hp
    simp only [collectAnomalies, Option.some_inj] at h
    subst h
    simp at hp
  | cons t ts ih =>
    intro i l h p hp
    unfold collectAnomalies at h
    cases hq : d.is_punctuation t with
    | none => rw [hq] at h; simp at h
    | some pb =>
      rw [hq] at h
      cases hr : collectAnomalies d (i + 1) ts with
      | none => rw [hr] at h; simp at h
      | some rest =>
        rw [hr] at h
        simp only [Option.some_inj] at h
        subst h
        by_cases hc : (!(d.char_matcher.is_valid t) && !pb) = true
        · rw [if_pos hc] at hp
          rcases List.mem_cons.mp hp with h1 | h1
          · subst h1
            simp only [List.length_cons]
            omega
          · have h2 := ih (i + 1) rest hr p h1
            simp only [List.length_cons]
            omega
        · rw [if_neg hc] at hp
          have h2 := ih (i + 1) rest hr p hp
          simp only [List.length_cons]
          omega

theorem insDesc_length {α : Type} (key : α → ℚ) (x : α) (l : List α) :
    (insDesc key x l).length = l.length + 1 := by
  induction l with
  | nil => rfl
  | cons y ys ih =>
    unfold insDesc
    split
    · simp
    · simp [ih]

theorem sortByDesc_length {α : Type} (key : α → ℚ) (l : List α) :
    (sortByDesc key l).length = l.length := by
  induction l with
  | nil => rfl
  | cons x xs ih =>
    unfold sortByDesc at ih ⊢
    simp [List.foldr_cons, insDesc_length, ih]

theorem disambiguate_word_isSome (d : SemanticDisambiguator) (w : Str)
    (pos : Nat) (sentence : List Str) (theme : Option Str) :
    (d.disambiguate_word w pos sentence theme).isSome := by
  unfold SemanticDisambiguator.disambiguate_word
  by_cases hc : (d.char_matcher.find_candidates w).isEmpty
  · simp [hc]
  · simp only [hc, Bool.false_eq_true, if_false]
    split
    · rename_i heq
      exfalso
      have hcne : d.char_matcher.find_candidates w ≠ [] := by
        intro h0
        rw [h0] at hc
        simp at hc
      have hnil := List.head?_eq_none_iff.mp heq
      have hlen := congrArg List.length hnil
      rw [sortByDesc_length, List.length_map] at hlen
      simp only [List.length_nil] at hlen
      exact hcne (List.length_eq_zero.mp hlen)
    · simp

theorem setTok_length {l l2 : List Str} {i : Nat} {v : Str}
    (h : setTok l i v = some l2) : l2.length = l.length := by
  unfold setTok at h
  by_cases hi : i < l.length
  · rw [if_pos hi, Option.some_inj] at h
    subst h
    simp
  · rw [if_neg hi] at h
    cases h

theorem foldCorrections_isSome (d : SemanticDisambiguator) (tokens : List Str)
    (theme : Option Str) :
    ∀ (anoms : List (Nat × Str)) (ctoks : List Str) (corrs : List Correction),
      (∀ p ∈ anoms, p.1 < ctoks.length) →
      (foldCorrections d tokens theme anoms ctoks corrs).isSome := by
  intro anoms
  induction anoms with
  | nil =>
    intro ctoks corrs _
    simp [foldCorrections]
  | cons a rest ih =>
    intro ctoks corrs hb
    obtain ⟨idx, anomaly⟩ := a
    have h1 := disambiguate_word_isSome d anomaly idx tokens theme
    cases hd : d.disambiguate_word anomaly idx tokens theme with
    | none => rw [hd] at h1; simp at h1
    | some trip =>
      obtain ⟨cw, conf, expl⟩ := trip
      unfold foldCorrections
      rw [hd]
      dsimp only
      by_cases hm : d.config.min_confidence ≤ conf
      · rw [if_pos hm]
        have hidx : idx < ctoks.length := by
          have := hb (idx, anomaly) (List.mem_cons_self _ _)
          simpa using this
        have hset : setTok ctoks idx cw = some (ctoks.set idx cw) := by
          unfold setTok
          rw [if_pos hidx]
        rw [hset]
        apply ih
        intro p hp
        have := hb p (List.mem_cons_of_mem _ hp)
        simpa [List.length_set] using this
      · rw [if_neg hm]
        apply ih
        intro p hp
        exact hb p (List.mem_cons_of_mem _ hp)

/-- C7: `process` is total.  For every engine state and every input string it
returns a result: every potentially panicking operation on its paths (the
`unwrap` of `is_punctuation`, the `scored_candidates[0]` access, the
`corrected_tokens[idx]` assignment, all modelled in `Option`) is reached only
under its guard, and the mean-confidence division is guarded by the
emptiness check. -/
theorem C7_process_total :
    ∀ (d : SemanticDisambiguator) (s : Str), (d.process s).isSome := by
  intro d s
  unfold SemanticDisambiguator.process
  dsimp only
  have h1 := collectAnomalies_isSome d 0 (d.tokenize s)
  cases ha : collectAnomalies d 0 (d.tokenize s) with
  | none => rw [ha] at h1; simp at h1
  | some anomalies =>
    by_cases he : anomalies.isEmpty
    · simp [he]
    · simp only [he, Bool.false_eq_true, if_false]
      have hb : ∀ p ∈ anomalies, p.1 < (d.tokenize s).length := by
        intro p hp
        have := collectAnomalies_bounds d (d.tokenize s) 0 anomalies ha p hp
        omega
      have hf := foldCorrections_isSome
        (themeEngine d (d.semantic_db.infer_theme
          ((d.tokenize s).filter fun t => d.char_matcher.is_valid t)))
        (d.tokenize s)
        ((d.semantic_db.infer_theme
          ((d.tokenize s).filter fun t => d.char_matcher.is_valid t)).map
          Prod.fst)
        anomalies (d.tokenize s) [] hb
      cases hfc : foldCorrections
        (themeEngine d (d.semantic_db.infer_theme
          ((d.tokenize s).filter fun t => d.char_matcher.is_valid t)))
        (d.tokenize s)
        ((d.semantic_db.infer_theme
          ((d.tokenize s).filter fun t => d.char_matcher.is_valid t)).map
          Prod.fst)
        anomalies (d.tokenize s) [] with
      | none => rw [hfc] at hf; simp at hf
      | some out =>
        obtain ⟨ct, corrs⟩ := out
        simp

/-- C8: with no anomalous token, `process` returns the input unchanged with
confidence `1.0` and no corrections; with anomalies, the global confidence is
the arithmetic mean of the accepted corrections' confidences, and `1.0` when
none was accepted. -/
theorem C8_process_confidence :
    ∀ (d : SemanticDisambiguator) (s : Str) (anoms : List (Nat × Str))
      (r : ProcessedSentence) (d2 : SemanticDisambiguator),
      collectAnomalies d 0 (d.tokenize s) = some anoms →
      d.process s = some (r, d2) →
      ((anoms = [] → r.original = s ∧ r.corrected = s ∧ r.confidence = 1 ∧
        r.corrections = []) ∧
      (anoms ≠ [] →
        (r.corrections = [] → r.confidence = 1) ∧
        (r.corrections ≠ [] → r.confidence =
          ((r.corrections.map fun c => c.confidence).sum)
            / (r.corrections.length : ℚ)))) := by
  intro d s anoms r d2 h1 h2
  unfold SemanticDisambiguator.process at h2
  dsimp only at h2
  rw [h1] at h2
  dsimp only at h2
  by_cases he : anoms.isEmpty
  · rw [if_pos he] at h2
    have hr : r = ⟨s, s, 1, []⟩ :=
      (congrArg Prod.fst (Option.some.inj h2)).symm
    subst hr
    constructor
    · intro _
      exact ⟨rfl, rfl, rfl, rfl⟩
    · intro hne
      exact absurd (List.isEmpty_iff.mp he) hne
  · rw [if_neg he] at h2
    cases hf : foldCorrections
        (themeEngine d (d.semantic_db.infer_theme
          ((d.tokenize s).filter fun t => d.char_matcher.is_valid t)))
        (d.tokenize s)
        ((d.semantic_db.infer_theme
          ((d.tokenize s).filter fun t => d.char_matcher.is_valid t)).map
          Prod.fst)
        anoms (d.tokenize s) [] with
    | none => rw [hf] at h2; cases h2
    | some out =>
      obtain ⟨ct, corrs⟩ := out
      rw [hf] at h2
      have hr : r = ⟨s, joinSpace ct,
          if corrs.isEmpty then 1
          else ((corrs.map fun c => c.confidence).sum) / (corrs.length : ℚ),
          corrs⟩ :=
        (congrArg Prod.fst (Option.some.inj h2)).symm
      subst hr
      constructor
      · intro h0
        exact absurd (by rw [h0]; rfl) he
      · intro _
        constructor
        · intro hc0
          simp only at hc0
          simp [hc0]
        · intro hcne
          simp only at hcne ⊢
          rw [if_neg (by simpa [List.isEmpty_iff] using hcne)]

/-- C8 witness: on the default engine and the anomaly-free input `"el"`,
`process` returns the input unchanged with confidence `1.0` and no
corrections. -/
theorem C8_process_confidence_witness :
    (collectAnomalies SemanticDisambiguator.new 0
      (SemanticDisambiguator.new.tokenize (str "el")) = some []) ∧
    (SemanticDisambiguator.new.process (str "el")
      = some (⟨str "el", str "el", 1, []⟩, SemanticDisambiguator.new)) ∧
    (((⟨str "el", str "el", 1, []⟩ : ProcessedSentence).original = str "el" ∧
      (⟨str "el", str "el", 1, []⟩ : ProcessedSentence).corrected = str "el" ∧
      (⟨str "el", str "el", 1, []⟩ : ProcessedSentence).confidence = 1 ∧
      (⟨str "el", str "el", 1, []⟩ : ProcessedSentence).corrections = [])) :=
  ⟨rfl, rfl,
    (C8_process_confidence SemanticDisambiguator.new (str "el") []
      ⟨str "el", str "el", 1, []⟩ SemanticDisambiguator.new rfl rfl).1 rfl⟩

/-- Decomposition of the per-anomaly correction loop of `process`: it
preserves the token-list length, every correction it appends meets
`min_confidence`, and a position named by no appended correction keeps its
incoming token. -/
theorem foldCorrections_spec (d : SemanticDisambiguator) (tokens : List Str)
    (theme : Option Str) :
    ∀ (anoms : List (Nat × Str)) (ctoks : List Str) (corrs : List Correction)
      (out : List Str × List Correction),
      foldCorrections d tokens theme anoms ctoks corrs = some out →
      out.1.length = ctoks.length ∧
      ∃ newCorrs : List Correction, out.2 = corrs ++ newCorrs ∧
        (∀ c ∈ newCorrs, d.config.min_confidence ≤ c.confidence) ∧
        (∀ i : Nat, (∀ c ∈ newCorrs, c.position ≠ i) →
          out.1[i]? = ctoks[i]?) := by
  intro anoms
  induction anoms with
  | nil =>
    intro ctoks corrs out h
    simp only [foldCorrections, Option.some.injEq] at h
    cases h
    exact ⟨rfl, [], (List.append_nil corrs).symm, by simp, fun i _ => rfl⟩
  | cons a rest ih =>
    intro ctoks corrs out h
    obtain ⟨idx, anomaly⟩ := a
    unfold foldCorrections at h
    cases hd : d.disambiguate_word anomaly idx tokens theme with
    | none =>
      rw [hd] at h
      dsimp only at h
      exact Option.noConfusion h
    | some trip =>
      obtain ⟨cw, conf, expl⟩ := trip
      rw [hd] at h
      dsimp only at h
      by_cases hm : d.config.min_confidence ≤ conf
      · rw [if_pos hm] at h
        cases hs : setTok ctoks idx cw with
        | none =>
          rw [hs] at h
          dsimp only at h
          exact Option.noConfusion h
        | some ctoks2 =>
          rw [hs] at h
          dsimp only at h
          have hct : idx < ctoks.length ∧ ctoks2 = ctoks.set idx cw := by
            unfold setTok at hs
            by_cases hib : idx < ctoks.length
            · rw [if_pos hib] at hs
              exact ⟨hib, (Option.some.inj hs).symm⟩
            · rw [if_neg hib] at hs
              exact Option.noConfusion hs
          have hlen2 : ctoks2.length = ctoks.length := by
            rw [hct.2]
            exact List.length_set ctoks idx cw
          obtain ⟨hlen, newCorrs, heq, hconf, hpos⟩ :=
            ih ctoks2 (corrs ++ [⟨idx, anomaly, cw, conf, expl⟩]) out h
          refine ⟨hlen.trans hlen2,
            ⟨idx, anomaly, cw, conf, expl⟩ :: newCorrs, ?_, ?_, ?_⟩
          · rw [heq, List.append_assoc]
            rfl
          · intro c hc
            rcases List.mem_cons.mp hc with rfl | hc2
            · exact hm
            · exact hconf c hc2
          · intro i hi
            have hne : idx ≠ i := hi _ (List.mem_cons_self _ _)
            have hstep := hpos i fun c hc => hi c (List.mem_cons_of_mem _ hc)
            rw [hstep, hct.2]
            exact List.getElem?_set_ne hne
      · rw [if_neg hm] at h
        exact ih ctoks corrs out h

/-- C3 (amended): when the input has anomalies, `process` still succeeds;
every correction it reports meets `min_confidence` — so a no-candidate or
below-floor anomaly contributes no correction, and in particular the
zero-confidence explanation built by `disambiguate_word` is NOT carried in
the returned result — and the corrected output is the space-join of a token
list with the input's token count in which every position named by no
reported correction keeps the original token (the anomalous token is left
unmodified). -/
theorem C3_subthreshold_anomaly_handling :
    ∀ (d : SemanticDisambiguator) (s : Str) (anoms : List (Nat × Str))
      (r : ProcessedSentence) (d2 : SemanticDisambiguator),
      collectAnomalies d 0 (d.tokenize s) = some anoms →
      anoms ≠ [] →
      d.process s = some (r, d2) →
      (∀ c ∈ r.corrections, d.config.min_confidence ≤ c.confidence) ∧
      ∃ ctoks : List Str, r.corrected = joinSpace ctoks ∧
        ctoks.length = (d.tokenize s).length ∧
        ∀ i : Nat, (∀ c ∈ r.corrections, c.position ≠ i) →
          ctoks[i]? = (d.tokenize s)[i]? := by
  intro d s anoms r d2 h1 hne h2
  unfold SemanticDisambiguator.process at h2
  dsimp only at h2
  rw [h1] at h2
  dsimp only at h2
  rw [if_neg (by simpa [List.isEmpty_iff] using hne)] at h2
  cases hf : foldCorrections
      (themeEngine d (d.semantic_db.infer_theme
        ((d.tokenize s).filter fun t => d.char_matcher.is_valid t)))
      (d.tokenize s)
      ((d.semantic_db.infer_theme
        ((d.tokenize s).filter fun t => d.char_matcher.is_valid t)).map
        Prod.fst)
      anoms (d.tokenize s) [] with
  | none => rw [hf] at h2; cases h2
  | some out =>
    obtain ⟨ct, corrs⟩ := out
    rw [hf] at h2
    have hr : r = ⟨s, joinSpace ct,
        if corrs.isEmpty then 1
        else ((corrs.map fun c => c.confidence).sum) / (corrs.length : ℚ),
        corrs⟩ :=
      (congrArg Prod.fst (Option.some.inj h2)).symm
    subst hr
    obtain ⟨hlen, newCorrs, heq, hconf, hpos⟩ :=
      foldCorrections_spec _ (d.tokenize s) _ anoms (d.tokenize s) []
        (ct, corrs) hf
    have heq2 : corrs = newCorrs := by
      have h3 : corrs = [] ++ newCorrs := heq
      rwa [List.nil_append] at h3
    subst heq2
    have hcfg : (themeEngine d (d.semantic_db.infer_theme
        ((d.tokenize s).filter fun t => d.char_matcher.is_valid t))).config
        = d.config := by
      cases d.semantic_db.infer_theme
          ((d.tokenize s).filter fun t => d.char_matcher.is_valid t) with
      | none => rfl
      | some p => cases p; rfl
    exact ⟨fun c hc => hcfg ▸ hconf c hc,
      ct, rfl, hlen, fun i hi => hpos i hi⟩

/-- C3 counterexample: on the default engine the token `"kkk"` is anomalous
(out of dictionary, not punctuation) and the Character Matcher yields no
candidates, so `disambiguate_word` builds the zero-confidence
`"No se encontraron candidatos"` explanation — yet `process` returns an
EMPTY corrections list (confidence `1.0`): the zero-confidence explanation
for the uncorrected anomaly is not carried in the returned result,
contradicting the claim's last clause. The call does succeed and the token
is left unmodified, so the first two clauses hold. -/
theorem C3_counterexample_discarded_zero_confidence :
    (SemanticDisambiguator.new.char_matcher.find_candidates (str "kkk")
      = []) ∧
    (collectAnomalies SemanticDisambiguator.new 0
      (SemanticDisambiguator.new.tokenize (str "kkk"))
      = some [(0, str "kkk")]) ∧
    (SemanticDisambiguator.new.disambiguate_word (str "kkk") 0
      [str "kkk"] none
      = some (str "kkk", 0,
          ⟨0, 0, 0, [], str "No se encontraron candidatos"⟩)) ∧
    (SemanticDisambiguator.new.process (str "kkk")
      = some (⟨str "kkk", str "kkk", 1, []⟩, SemanticDisambiguator.new)) :=
  ⟨rfl, rfl, rfl, rfl⟩

/-- C3 witness: the amended theorem applied to the default engine on
`"kkk"`, whose single anomaly gets no candidates: the result carries no
correction and the token list is unchanged. -/
theorem C3_subthreshold_anomaly_handling_witness :
    (collectAnomalies SemanticDisambiguator.new 0
      (SemanticDisambiguator.new.tokenize (str "kkk"))
      = some [(0, str "kkk")]) ∧
    ([(0, str "kkk")] ≠ ([] : List (Nat × Str))) ∧
    (SemanticDisambiguator.new.process (str "kkk")
      = some (⟨str "kkk", str "kkk", 1, []⟩, SemanticDisambiguator.new)) ∧
    ((∀ c ∈ (⟨str "kkk", str "kkk", 1, []⟩ :
        ProcessedSentence).corrections,
        SemanticDisambiguator.new.config.min_confidence ≤ c.confidence) ∧
      ∃ ctoks : List Str,
        (⟨str "kkk", str "kkk", 1, []⟩ : ProcessedSentence).corrected
          = joinSpace ctoks ∧
        ctoks.length
          = (SemanticDisambiguator.new.tokenize (str "kkk")).length ∧
        ∀ i : Nat,
          (∀ c ∈ (⟨str "kkk", str "kkk", 1, []⟩ :
              ProcessedSentence).corrections, c.position ≠ i) →
          ctoks[i]? = (SemanticDisambiguator.new.tokenize (str "kkk"))[i]?) :=
  ⟨rfl, by simp, rfl,
    C3_subthreshold_anomaly_handling SemanticDisambiguator.new (str "kkk")
      [(0, str "kkk")] ⟨str "kkk", str "kkk", 1, []⟩
      SemanticDisambiguator.new rfl (by simp) rfl⟩

end NLSRE
